import Mathlib

/-!
Shallow embedding of the Assets3D mesh-processing core
(`src/processor.py`, `src/exporter.py`) over exact arithmetic:
vertex coordinates and HSV values are rationals, palette channel
values are integers.  Float64 arithmetic of the source is idealised
as exact rational/real arithmetic; `numpy` casts to integer dtypes
truncate toward zero, which we model explicitly.
-/

namespace Assets3D

/-- Truncation toward zero, the semantics of numpy's cast from a float
to an integer dtype (`astype(int)`, `dtype=int`).  Written on the
numerator/denominator so that it evaluates by kernel reduction. -/
def intTrunc (x : ℚ) : ℤ :=
  if 0 ≤ x.num then ((x.num.toNat / x.den : ℕ) : ℤ)
  else -(((-x.num).toNat / x.den : ℕ) : ℤ)

/-- `numpy.linspace a b n` with `endpoint=True`: `n` evenly spaced
rationals from `a` to `b` inclusive (`n = 1` gives `[a]`). -/
def linspaceEP (a b : ℚ) (n : ℕ) : List ℚ :=
  if n = 1 then [a]
  else (List.range n).map
    (fun (i : ℕ) => a + (i : ℚ) * (b - a) / ((n : ℚ) - 1))

/-- `numpy.linspace a b n` with `endpoint=False`: step `(b-a)/n`. -/
def linspaceNoEP (a b : ℚ) (n : ℕ) : List ℚ :=
  (List.range n).map (fun (i : ℕ) => a + (i : ℚ) * (b - a) / (n : ℚ))

/-- `colorsys.hsv_to_rgb h s v` (the exact branch structure of the
CPython implementation), over ℚ.  `int(h*6.0)` truncates toward zero;
all call sites in the source use `h ≥ 0`, where truncation is `⌊·⌋`. -/
def hsv_to_rgb (h s v : ℚ) : ℚ × ℚ × ℚ :=
  if s = 0 then (v, v, v)
  else
    let i : ℤ := intTrunc (h * 6)
    let f : ℚ := h * 6 - (i : ℚ)
    let p : ℚ := v * (1 - s)
    let q : ℚ := v * (1 - s * f)
    let t : ℚ := v * (1 - s * (1 - f))
    let im : ℤ := i % 6
    if im = 0 then (v, t, p)
    else if im = 1 then (q, v, p)
    else if im = 2 then (p, v, t)
    else if im = 3 then (p, q, v)
    else if im = 4 then (t, p, v)
    else (v, p, q)

/-- An RGB byte triple as produced by the palette generator. -/
abbrev RGB := ℤ × ℤ × ℤ

/-- `(rgb * 255).astype(int)` applied to the result of `hsv_to_rgb`. -/
def hsvToByte (h s v : ℚ) : RGB :=
  let c := hsv_to_rgb h s v
  (intTrunc (c.1 * 255), intTrunc (c.2.1 * 255), intTrunc (c.2.2 * 255))

/-- Largest `k` with `k^3 ≤ n` (integer cube-root floor). -/
def natCbrt (n : ℕ) : ℕ :=
  ((List.range (n + 1)).filter (fun k => k ^ 3 ≤ n)).foldl max 0

/-- `int(np.round(size ** (1/3)))`: the integer nearest to the real
cube root of `n`.  With `k = ⌊n^(1/3)⌋` we round up exactly when
`n^(1/3) ≥ k + 1/2`, i.e. `8n ≥ (2k+1)^3`; equality is impossible
(odd vs even), so banker's rounding never differs here. -/
def roundCbrt (n : ℕ) : ℕ :=
  let k := natCbrt n
  if (2 * k + 1) ^ 3 ≤ 8 * n then k + 1 else k

/-- Largest `k` with `k^2 ≤ n` (integer square-root floor). -/
def sqrtFloor (n : ℕ) : ℕ :=
  ((List.range (n + 1)).filter (fun k => k ^ 2 ≤ n)).foldl max 0

/-- `int(np.sqrt(size * 2))` — float `sqrt` then truncation, i.e. the
integer square-root floor. -/
def hueStepCount (size : ℕ) : ℕ := sqrtFloor (size * 2)

/-- The `size ≤ 216` branch of `generate_full_spectrum_palette`:
`steps = round(size ** (1/3))` evenly spaced channel values
(`np.linspace(0, 255, steps, dtype=int)` truncates each value), then
the triple nested loop over r (outer), g, b (inner) with early breaks,
i.e. the first `size` elements of the Cartesian product. -/
def rgbCubePalette (size : ℕ) : List RGB :=
  let steps := roundCbrt size
  let values := (linspaceEP 0 255 steps).map intTrunc
  ((values.flatMap fun r => values.flatMap fun g => values.map fun b =>
    (r, g, b))).take size

/-- The `size > 216` branch: HSV grid with
`hue_steps = int(np.sqrt(size*2))`,
`sat_steps = max(2, size // hue_steps // 2)`,
`val_steps = max(2, size // hue_steps // sat_steps)`,
hue over `linspace(0, 360, hue_steps, endpoint=False)`, saturation over
`linspace(0.6, 1.0, sat_steps)`, value over `linspace(0.7, 1.0,
val_steps)`, nested loops with early breaks. -/
def hsvGridPalette (size : ℕ) : List RGB :=
  let hueSteps := hueStepCount size
  let satSteps := max 2 (size / hueSteps / 2)
  let valSteps := max 2 (size / hueSteps / satSteps)
  let hues := linspaceNoEP 0 360 hueSteps
  let sats := linspaceEP (6/10) 1 satSteps
  let vals := linspaceEP (7/10) 1 valSteps
  ((hues.flatMap fun h => sats.flatMap fun s => vals.map fun v =>
    hsvToByte (h / 360) s v)).take size

/-- Integer nearest to the real square root of `n` (`round(sqrt n)`):
with `k = ⌊√n⌋` we round up exactly when `√n ≥ k + 1/2`, i.e.
`(2k+1)^2 ≤ 4n`; equality is impossible (odd vs even). -/
def roundSqrt (n : ℕ) : ℕ :=
  let k := sqrtFloor n
  if (2 * k + 1) ^ 2 ≤ 4 * n then k + 1 else k

/-- Modelled from the spec's words, for comparison with the code
(claim C8): the HSV branch with `hue_steps = round(sqrt(2 N))` —
rounding to nearest — everything else as in the source. -/
def hsvGridPaletteSpec (size : ℕ) : List RGB :=
  let hueSteps := roundSqrt (size * 2)
  let satSteps := max 2 (size / hueSteps / 2)
  let valSteps := max 2 (size / hueSteps / satSteps)
  let hues := linspaceNoEP 0 360 hueSteps
  let sats := linspaceEP (6/10) 1 satSteps
  let vals := linspaceEP (7/10) 1 valSteps
  ((hues.flatMap fun h => sats.flatMap fun s => vals.map fun v =>
    hsvToByte (h / 360) s v)).take size

/-- Modelled from the spec's words (claim C8): the palette generator
with the spec's `round`-based HSV branch for `size > 216`. -/
def generatePaletteSpecRound (size : ℕ) (rand : ℕ → ℚ × ℚ × ℚ) :
    List RGB :=
  let det := if size ≤ 216 then rgbCubePalette size
             else hsvGridPaletteSpec size
  (det ++ (List.range (size - det.length)).map fun i =>
    hsvToByte (rand i).1 (rand i).2.1 (rand i).2.2).take size

/-- The deterministic part of `generate_full_spectrum_palette`. -/
def paletteDet (size : ℕ) : List RGB :=
  if size ≤ 216 then rgbCubePalette size else hsvGridPalette size

/-- `MeshProcessor.generate_full_spectrum_palette`.  The trailing
`while len(palette) < size` loop draws random HSV triples; the random
source is modelled as an injected stream `rand` consumed in order
(`rand i` is the `i`-th draw `(h, s, v)`).  The final
`palette[:size]` is the `take`. -/
def generate_full_spectrum_palette (size : ℕ) (rand : ℕ → ℚ × ℚ × ℚ) :
    List RGB :=
  let det := paletteDet size
  (det ++ (List.range (size - det.length)).map fun i =>
    hsvToByte (rand i).1 (rand i).2.1 (rand i).2.2).take size

/-! The mesh data model.  Vertex positions are exact rational
3-vectors; faces are index triples; vertex colors, when present, are
RGBA byte 4-tuples.  This matches the spec's Mesh data model and the
`trimesh.Trimesh` objects the source manipulates. -/

/-- A 3D point / vector with rational coordinates. -/
abbrev Vec3 := ℚ × ℚ × ℚ

/-- Dot product. -/
def vdot (u v : Vec3) : ℚ := u.1 * v.1 + u.2.1 * v.2.1 + u.2.2 * v.2.2

/-- Cross product. -/
def vcross (u v : Vec3) : Vec3 :=
  (u.2.1 * v.2.2 - u.2.2 * v.2.1,
   u.2.2 * v.1 - u.1 * v.2.2,
   u.1 * v.2.1 - u.2.1 * v.1)

/-- An RGBA byte 4-tuple. -/
abbrev RGBA := ℤ × ℤ × ℤ × ℤ

/-- A triangle mesh: vertices, faces (index triples), optional
per-vertex colors. -/
structure Mesh where
  vertices : List Vec3
  faces : List (ℕ × ℕ × ℕ)
  vertexColors : Option (List RGBA)
deriving DecidableEq

/-- A face contains vertex index `i`. -/
def faceHas (f : ℕ × ℕ × ℕ) (i : ℕ) : Bool :=
  f.1 == i || f.2.1 == i || f.2.2 == i

/-! `MeshProcessor.normalize_mesh`. -/

/-- Minimum of two rationals, written so that it evaluates by kernel
reduction. -/
def rmin (a b : ℚ) : ℚ := if a ≤ b then a else b

/-- Maximum of two rationals, written so that it evaluates by kernel
reduction. -/
def rmax (a b : ℚ) : ℚ := if a ≤ b then b else a

/-- Minimum of a nonempty list of rationals (`0` for `[]`). -/
def axisMin : List ℚ → ℚ
  | [] => 0
  | x :: xs => xs.foldl rmin x

/-- Maximum of a nonempty list of rationals (`0` for `[]`). -/
def axisMax : List ℚ → ℚ
  | [] => 0
  | x :: xs => xs.foldl rmax x

/-- Per-axis lower corner of the axis-aligned bounding box
(`mesh.bounds[0]`). -/
def meshMin (m : Mesh) : Vec3 :=
  (axisMin (m.vertices.map fun v => v.1),
   axisMin (m.vertices.map fun v => v.2.1),
   axisMin (m.vertices.map fun v => v.2.2))

/-- Per-axis upper corner of the axis-aligned bounding box
(`mesh.bounds[1]`). -/
def meshMax (m : Mesh) : Vec3 :=
  (axisMax (m.vertices.map fun v => v.1),
   axisMax (m.vertices.map fun v => v.2.1),
   axisMax (m.vertices.map fun v => v.2.2))

/-- `bounds.mean(axis=0)` — the box midpoint. -/
def meshCenter (m : Mesh) : Vec3 := ((1 : ℚ)/2) • (meshMin m + meshMax m)

/-- `(bounds[1] - bounds[0]).max()` — the largest box dimension. -/
def meshExtent (m : Mesh) : ℚ :=
  rmax ((meshMax m).1 - (meshMin m).1)
    (rmax ((meshMax m).2.1 - (meshMin m).2.1)
      ((meshMax m).2.2 - (meshMin m).2.2))

/-- `MeshProcessor.normalize_mesh`: recenter at the box midpoint and
divide by `scale * 0.5` where `scale` is the largest box dimension
(`1.0` when zero).  For an empty mesh `mesh.bounds` is `None` and the
surrounding `except` returns the mesh unchanged. -/
def normalize_mesh (m : Mesh) : Mesh :=
  if m.vertices = [] then m
  else
    let scaleRaw := meshExtent m
    let scale : ℚ := if scaleRaw = 0 then 1 else scaleRaw
    { m with vertices :=
        m.vertices.map fun v => (1 / (scale * (1/2))) • (v - meshCenter m) }

/-! `MeshProcessor.enhance_sharpness`. -/

/-- The zero vector. -/
def vzero : Vec3 := ((0 : ℚ), (0 : ℚ), (0 : ℚ))

/-- One-ring neighbors of vertex `i`: the sorted distinct indices
`j ≠ i` occurring in some face that also contains `i` (the source
computes `np.unique` of the flattened incident faces and removes `i`;
`np.unique` sorts ascending, as does filtering `List.range n`). -/
def neighborsOf (n : ℕ) (faces : List (ℕ × ℕ × ℕ)) (i : ℕ) : List ℕ :=
  (List.range n).filter fun j =>
    j != i && faces.any fun f => faceHas f i && faceHas f j

/-- The sharpness test of one consecutive pair of edge vectors:
`arccos(clip(dot/(‖u‖‖v‖), -1, 1)) > π/3`.  In exact arithmetic the
clip is the identity (Cauchy–Schwarz), and the comparison is
equivalent to `2·dot < ‖u‖·‖v‖`, i.e. `dot ≤ 0` or
`4·dot² < ‖u‖²·‖v‖²`.  When an edge vector has zero length the float
computation produces `nan` (no exception is raised), every ordered
comparison with `nan` is false, and the pair never counts as sharp. -/
def sharpPair (u v : Vec3) : Bool :=
  if u = ((0 : ℚ), (0 : ℚ), (0 : ℚ)) ∨ v = ((0 : ℚ), (0 : ℚ), (0 : ℚ))
  then false
  else decide (vdot u v ≤ 0 ∨ 4 * (vdot u v) ^ 2 < vdot u u * vdot v v)

/-- Adjacent pairs of a list, in order: `l.zip l.tail`. -/
def consecPairs {α : Type} (l : List α) : List (α × α) := l.zip l.tail

/-- The update of a single vertex in one smoothing iteration, computed
from the pre-iteration positions `vs`. -/
def sharpStep (vs : List Vec3) (faces : List (ℕ × ℕ × ℕ)) (i : ℕ)
    (v : Vec3) : Vec3 :=
  let nbrs := neighborsOf vs.length faces i
  if nbrs = [] then v
  else
    let edges := nbrs.map fun j => vs.getD j vzero - v
    if (consecPairs edges).any fun p => sharpPair p.1 p.2 then v
    else
      let centroid := (1 / (nbrs.length : ℚ)) •
        (nbrs.map fun j => vs.getD j vzero).sum
      ((8 : ℚ)/10) • v + ((2 : ℚ)/10) • centroid

/-- One smoothing iteration: all updates are computed from the
pre-iteration positions and applied simultaneously. -/
def sharpIter (faces : List (ℕ × ℕ × ℕ)) (vs : List Vec3) : List Vec3 :=
  vs.mapIdx fun i v => sharpStep vs faces i v

/-- `MeshProcessor.enhance_sharpness`: three fixed iterations; the
result shares the faces and the vertex colors of the input. -/
def enhance_sharpness (m : Mesh) : Mesh :=
  { m with vertices :=
      sharpIter m.faces (sharpIter m.faces (sharpIter m.faces m.vertices)) }

/-- One-ring of vertex `i` in a vertex/face list pair. -/
def oneRing (vs : List Vec3) (faces : List (ℕ × ℕ × ℕ)) (i : ℕ) : List ℕ :=
  neighborsOf vs.length faces i

/-- The neighbor-direction vectors `v → neighbor` at vertex `i`, in
neighbor order. -/
def edgesAt (vs : List Vec3) (faces : List (ℕ × ℕ × ℕ)) (i : ℕ) :
    List Vec3 :=
  (oneRing vs faces i).map fun j => vs.getD j vzero - vs.getD i vzero

/-- Vertex `i` is classified sharp: some adjacent pair of consecutive
neighbor-direction vectors subtends an angle exceeding 60 degrees. -/
def isSharpAt (vs : List Vec3) (faces : List (ℕ × ℕ × ℕ)) (i : ℕ) : Prop :=
  ∃ p ∈ consecPairs (edgesAt vs faces i), sharpPair p.1 p.2 = true

instance (vs : List Vec3) (faces : List (ℕ × ℕ × ℕ)) (i : ℕ) :
    Decidable (isSharpAt vs faces i) := by
  unfold isSharpAt; infer_instance

/-- Centroid of the one-ring neighbor positions of vertex `i`. -/
def centroidAt (vs : List Vec3) (faces : List (ℕ × ℕ × ℕ)) (i : ℕ) : Vec3 :=
  (1 / ((oneRing vs faces i).length : ℚ)) •
    ((oneRing vs faces i).map fun j => vs.getD j vzero).sum

/-- The smoothing blend `0.8 * old + 0.2 * centroid` at vertex `i`. -/
def blendAt (vs : List Vec3) (faces : List (ℕ × ℕ × ℕ)) (i : ℕ) : Vec3 :=
  ((8 : ℚ)/10) • vs.getD i vzero + ((2 : ℚ)/10) • centroidAt vs faces i

/-! `MeshProcessor.enhance_colors`. -/

/-- `MeshProcessor.enhance_colors`: when the mesh carries no vertex
colors, draw an index into the palette for each vertex from the
injected random stream `choice` (`np.random.choice(len(palette), n)`)
and store the palette color with alpha 255; otherwise pass the
existing colors through unchanged. -/
def enhance_colors (palette : List RGB) (choice : ℕ → ℕ) (m : Mesh) :
    Mesh :=
  match m.vertexColors with
  | none =>
    { m with vertexColors := some ((List.range m.vertices.length).map
        fun i =>
          let c := palette.getD (choice i) ((0 : ℤ), (0 : ℤ), (0 : ℤ))
          (c.1, c.2.1, c.2.2, (255 : ℤ))) }
  | some cs => { m with vertexColors := some cs }

/-! `MeshProcessor.clean_mesh`.  The individual steps call into the
`trimesh` library; each step is embedded according to that library's
documented behavior, idealised to exact arithmetic (exact zero area,
exact position equality in place of float tolerances). -/

/-- A face is degenerate when its three vertices are collinear or
coincident, i.e. the triangle has zero area. -/
def faceDegenerate (vs : List Vec3) (f : ℕ × ℕ × ℕ) : Bool :=
  decide (vcross (vs.getD f.2.1 vzero - vs.getD f.1 vzero)
    (vs.getD f.2.2 vzero - vs.getD f.1 vzero) = vzero)

/-- `mesh.remove_degenerate_faces()`: drop zero-area faces. -/
def removeDegenerateFaces (m : Mesh) : Mesh :=
  { m with faces := m.faces.filter fun f => !(faceDegenerate m.vertices f) }

/-- Vertex indices referenced by at least one face, ascending. -/
def referencedIdx (m : Mesh) : List ℕ :=
  (List.range m.vertices.length).filter fun i => m.faces.any fun f => faceHas f i

/-- Apply a vertex-index remapping to one face. -/
def mapFace (φ : ℕ → ℕ) (f : ℕ × ℕ × ℕ) : ℕ × ℕ × ℕ :=
  (φ f.1, φ f.2.1, φ f.2.2)

/-- Keep exactly the vertices listed in `kept` (ascending), remapping
face indices and slicing colors accordingly. -/
def selectVertices (m : Mesh) (kept : List ℕ) : Mesh :=
  { vertices := kept.map fun i => m.vertices.getD i vzero,
    faces := m.faces.map (mapFace fun i => kept.indexOf i),
    vertexColors := m.vertexColors.map fun cs =>
      kept.map fun i => cs.getD i ((0:ℤ),(0:ℤ),(0:ℤ),(0:ℤ)) }

/-- `mesh.remove_unreferenced_vertices()`. -/
def remove_unreferenced_vertices (m : Mesh) : Mesh :=
  selectVertices m (referencedIdx m)

/-- The unordered edge `{a, b}` as an ordered pair. -/
def ordPair (a b : ℕ) : ℕ × ℕ := (min a b, max a b)

/-- The three (unordered) edges of a face. -/
def faceEdges (f : ℕ × ℕ × ℕ) : List (ℕ × ℕ) :=
  [ordPair f.1 f.2.1, ordPair f.2.1 f.2.2, ordPair f.1 f.2.2]

/-- Two faces are adjacent when they share an edge (the
`face_adjacency` graph `mesh.split` traverses). -/
def sharesEdge (f g : ℕ × ℕ × ℕ) : Bool :=
  (faceEdges f).any fun e => e ∈ faceEdges g

/-- Adjacency of the faces at positions `k` and `l` of the face list. -/
def facesAdj (faces : List (ℕ × ℕ × ℕ)) (k l : ℕ) : Bool :=
  k != l && sharesEdge (faces.getD k (0, 0, 0)) (faces.getD l (0, 0, 0))

/-- One step of the component search: add every face adjacent to the
current set. -/
def compStep (faces : List (ℕ × ℕ × ℕ)) (s : Finset ℕ) : Finset ℕ :=
  s ∪ (Finset.range faces.length).filter fun l => ∃ k ∈ s, facesAdj faces k l

/-- Saturate `compStep` (fuel-bounded; `faces.length` steps always
suffice). -/
def compSat (faces : List (ℕ × ℕ × ℕ)) : ℕ → Finset ℕ → Finset ℕ
  | 0, s => s
  | fuel + 1, s =>
    if compStep faces s = s then s else compSat faces fuel (compStep faces s)

/-- The set of face positions connected to face `k`. -/
def compReach (faces : List (ℕ × ℕ × ℕ)) (k : ℕ) : Finset ℕ :=
  compSat faces faces.length {k}

/-- The connected components of the face-adjacency graph, in order of
first appearance (the traversal order of `mesh.split`). -/
def componentsList (faces : List (ℕ × ℕ × ℕ)) : List (Finset ℕ) :=
  (List.range faces.length).foldl
    (fun acc k => if acc.any fun c => k ∈ c then acc
      else acc ++ [compReach faces k]) []

/-- Number of distinct vertices referenced by a component
(`len(x.vertices)` of the submesh). -/
def compVertexCount (faces : List (ℕ × ℕ × ℕ)) (c : Finset ℕ) : ℕ :=
  (c.biUnion fun k =>
    {(faces.getD k (0,0,0)).1, (faces.getD k (0,0,0)).2.1,
      (faces.getD k (0,0,0)).2.2}).card

/-- `max(components, key=lambda x: len(x.vertices))`: Python's `max`
keeps the first maximal element. -/
def pickLargest (faces : List (ℕ × ℕ × ℕ)) (comps : List (Finset ℕ)) :
    Option (Finset ℕ) :=
  comps.foldl (fun best c =>
    match best with
    | none => some c
    | some b => if compVertexCount faces c > compVertexCount faces b
      then some c else some b) none

/-- The submesh holding exactly the faces whose positions lie in the
component `C` (in face-list order), before reindexing. -/
def componentSubmesh (m : Mesh) (C : Finset ℕ) : Mesh :=
  { m with faces := ((List.range m.faces.length).filter
      (fun k => k ∈ C)).map fun k => m.faces.getD k (0, 0, 0) }

/-- The `split`/keep-largest-component step of `clean_mesh`: when the
mesh splits into more than one component, keep the faces of the
largest one (as a reindexed submesh); otherwise leave the mesh
unchanged. -/
def selectComponent (m : Mesh) : Mesh :=
  let comps := componentsList m.faces
  if 1 < comps.length then
    match pickLargest m.faces comps with
    | some C => remove_unreferenced_vertices (componentSubmesh m C)
    | none => m
  else m

/-- `mesh.fix_normals()` only reorients face windings (and falls back
silently); it does not change which vertices, positions, or vertex
sets of faces exist, which is all the properties below depend on.  It
is therefore embedded as the identity. -/
def fix_normals (m : Mesh) : Mesh := m

/-- Position of vertex `i` (the merge key). -/
def mergePos (m : Mesh) (i : ℕ) : Vec3 := m.vertices.getD i vzero

/-- The first vertex index holding the same position as `i`. -/
def mergeRepOf (m : Mesh) (i : ℕ) : ℕ :=
  (((List.range m.vertices.length).find? fun j =>
    decide (mergePos m j = mergePos m i)).getD i)

/-- The vertex indices that are the first occurrence of their
position, ascending. -/
def mergeReps (m : Mesh) : List ℕ :=
  (List.range m.vertices.length).filter fun i =>
    (List.range i).all fun j => !(decide (mergePos m j = mergePos m i))

/-- `mesh.merge_vertices(merge_tex=False, merge_norm=False)`: identify
vertices with exactly equal positions, keeping the first occurrence of
each position, and remap faces. -/
def merge_vertices (m : Mesh) : Mesh :=
  { vertices := (mergeReps m).map (mergePos m),
    faces := m.faces.map
      (mapFace fun i => (mergeReps m).indexOf (mergeRepOf m i)),
    vertexColors := m.vertexColors.map fun cs =>
      (mergeReps m).map fun i => cs.getD i ((0:ℤ),(0:ℤ),(0:ℤ),(0:ℤ)) }

/-- Adjacency of face positions `k`, `l` as a proposition, bounded to
the face list. -/
def facesAdjP (faces : List (ℕ × ℕ × ℕ)) (k l : ℕ) : Prop :=
  k < faces.length ∧ l < faces.length ∧ facesAdj faces k l = true

/-- Two face positions are connected by a chain of edge-sharing
faces. -/
def facesConnected (faces : List (ℕ × ℕ × ℕ)) (k l : ℕ) : Prop :=
  Relation.ReflTransGen (facesAdjP faces) k l

/-- A mesh is a single connected component: it has at least one face
and any two faces are connected through shared edges. -/
def isSingleComponent (m : Mesh) : Prop :=
  m.faces ≠ [] ∧ ∀ k l, k < m.faces.length → l < m.faces.length →
    facesConnected m.faces k l

/-- Every face index is within the vertex list (the spec's Mesh
invariant). -/
def meshValid (m : Mesh) : Prop :=
  ∀ f ∈ m.faces, f.1 < m.vertices.length ∧ f.2.1 < m.vertices.length ∧
    f.2.2 < m.vertices.length

/-- The mesh has no degenerate (zero-area) faces. -/
def noDegenerateFaces (m : Mesh) : Prop :=
  ∀ f ∈ m.faces, faceDegenerate m.vertices f = false

/-- Every vertex is referenced by at least one face. -/
def noUnreferencedVertices (m : Mesh) : Prop :=
  ∀ i < m.vertices.length, ∃ f ∈ m.faces, faceHas f i = true

/-- `MeshProcessor.clean_mesh`: degenerate-face removal, unreferenced
vertex removal, largest-component selection, normal fixing, minimal
vertex merging.  The `Optional` return mirrors the source; the
`except` branch (`None`) is unreachable in the exact embedding. -/
def clean_mesh (m : Mesh) : Option Mesh :=
  some (merge_vertices (fix_normals (selectComponent
    (remove_unreferenced_vertices (removeDegenerateFaces m)))))

/-- `MeshProcessor.process_mesh`: Clean, then Normalize, then Enhance
Sharpness, then Enhance Colors; `None` exactly when cleaning fails. -/
def process_mesh (palette : List RGB) (choice : ℕ → ℕ) (m : Mesh) :
    Option Mesh :=
  match clean_mesh m with
  | none => none
  | some c => some (enhance_colors palette choice
      (enhance_sharpness (normalize_mesh c)))

/-! `ModelExporter.get_camera_transform` (`src/exporter.py`).  The
float64 linear algebra is idealised over the exact reals. -/

/-- A 3D vector over the reals. -/
abbrev Vec3R := ℝ × ℝ × ℝ

/-- Dot product over ℝ. -/
def rdot (u v : Vec3R) : ℝ := u.1 * v.1 + u.2.1 * v.2.1 + u.2.2 * v.2.2

/-- Cross product over ℝ. -/
def rcross (u v : Vec3R) : Vec3R :=
  (u.2.1 * v.2.2 - u.2.2 * v.2.1,
   u.2.2 * v.1 - u.1 * v.2.2,
   u.1 * v.2.1 - u.2.1 * v.1)

/-- Euclidean norm over ℝ. -/
noncomputable def rnorm (v : Vec3R) : ℝ := Real.sqrt (rdot v v)

/-- Minimum of a nonempty list of reals (`0` for `[]`). -/
noncomputable def raxisMin : List ℝ → ℝ
  | [] => 0
  | x :: xs => xs.foldl min x

/-- Maximum of a nonempty list of reals (`0` for `[]`). -/
noncomputable def raxisMax : List ℝ → ℝ
  | [] => 0
  | x :: xs => xs.foldl max x

/-- `bounds[0]` of a vertex list. -/
noncomputable def camMin (vs : List Vec3R) : Vec3R :=
  (raxisMin (vs.map fun v => v.1), raxisMin (vs.map fun v => v.2.1),
    raxisMin (vs.map fun v => v.2.2))

/-- `bounds[1]` of a vertex list. -/
noncomputable def camMax (vs : List Vec3R) : Vec3R :=
  (raxisMax (vs.map fun v => v.1), raxisMax (vs.map fun v => v.2.1),
    raxisMax (vs.map fun v => v.2.2))

/-- `bounds.mean(axis=0)`. -/
noncomputable def camCenter (vs : List Vec3R) : Vec3R :=
  ((1 : ℝ)/2) • (camMin vs + camMax vs)

/-- `(bounds[1] - bounds[0]).max()`. -/
noncomputable def camSizeRaw (vs : List Vec3R) : ℝ :=
  max ((camMax vs).1 - (camMin vs).1)
    (max ((camMax vs).2.1 - (camMin vs).2.1)
      ((camMax vs).2.2 - (camMin vs).2.2))

/-- The four columns of the 4×4 camera transform: the fixed bottom row
of `np.eye(4)` is `(0,0,0,1)` and is omitted. -/
structure CameraTransform where
  right : Vec3R
  up : Vec3R
  back : Vec3R
  pos : Vec3R

/-- `np.eye(4)`. -/
def idTransform : CameraTransform :=
  ⟨((1:ℝ), (0:ℝ), (0:ℝ)), ((0:ℝ), (1:ℝ), (0:ℝ)),
   ((0:ℝ), (0:ℝ), (1:ℝ)), ((0:ℝ), (0:ℝ), (0:ℝ))⟩

open scoped Classical in
/-- `ModelExporter.get_camera_transform`: camera position
`center + size*2.5 * (0.8, 0.8, 0.6)`, forward toward the center,
right/up from cross products with world-up `+Z`; columns
`[right, up, -forward, camera_pos]`.  An empty mesh (`bounds` is
`None`) and any zero-length normalization fall back to the identity
transform per the `except` branch and the documented degeneracy
contract. -/
noncomputable def get_camera_transform (vs : List Vec3R) : CameraTransform :=
  if vs = [] then idTransform
  else
    let center := camCenter vs
    let size : ℝ := if camSizeRaw vs = 0 then 1 else camSizeRaw vs
    let distance := size * (5/2)
    let camera_pos := center +
      (distance * (8/10), distance * (8/10), distance * (6/10))
    let forward0 := center - camera_pos
    if rnorm forward0 = 0 then idTransform
    else
      let forward := (1 / rnorm forward0) • forward0
      let right0 := rcross forward ((0:ℝ), (0:ℝ), (1:ℝ))
      if rnorm right0 = 0 then idTransform
      else
        let right := (1 / rnorm right0) • right0
        let up := rcross right forward
        ⟨right, up, -forward, camera_pos⟩

/-! Basic facts about `intTrunc`, `hsv_to_rgb` and `linspace`. -/

theorem intTrunc_eq_floor {x : ℚ} (hx : 0 ≤ x) : intTrunc x = ⌊x⌋ := by
  unfold intTrunc
  have hnum : 0 ≤ x.num := Rat.num_nonneg.mpr hx
  rw [if_pos hnum, Rat.floor_def, Int.ofNat_ediv, Int.toNat_of_nonneg hnum]

theorem intTrunc_nonneg {x : ℚ} (hx : 0 ≤ x) : 0 ≤ intTrunc x := by
  unfold intTrunc
  rw [if_pos (Rat.num_nonneg.mpr hx)]
  exact Int.ofNat_nonneg _

theorem intTrunc_le {x : ℚ} (hx : 0 ≤ x) : (intTrunc x : ℚ) ≤ x := by
  rw [intTrunc_eq_floor hx]
  exact_mod_cast Int.floor_le x

theorem lt_intTrunc_add_one {x : ℚ} (hx : 0 ≤ x) :
    x < (intTrunc x : ℚ) + 1 := by
  rw [intTrunc_eq_floor hx]
  exact_mod_cast Int.lt_floor_add_one x

/-- Channel bounds for the byte conversion `(c * 255).astype(int)`. -/
theorem intTrunc_byte_range {c : ℚ} (h0 : 0 ≤ c) (h1 : c ≤ 1) :
    0 ≤ intTrunc (c * 255) ∧ intTrunc (c * 255) ≤ 255 := by
  have hy : 0 ≤ c * 255 := by positivity
  constructor
  · exact intTrunc_nonneg hy
  · have hle : (intTrunc (c * 255) : ℚ) ≤ c * 255 := intTrunc_le hy
    have : (intTrunc (c * 255) : ℚ) ≤ 255 := le_trans hle (by nlinarith)
    exact_mod_cast this

/-- The fractional part produced inside `hsv_to_rgb` lies in `[0, 1)`
whenever the hue argument is nonnegative. -/
theorem frac_bounds {y : ℚ} (hy : 0 ≤ y) :
    0 ≤ y - (intTrunc y : ℚ) ∧ y - (intTrunc y : ℚ) < 1 := by
  constructor
  · linarith [intTrunc_le hy]
  · linarith [lt_intTrunc_add_one hy]

/-- All three components of `colorsys.hsv_to_rgb` lie in `[0, 1]` when
`s, v ∈ [0, 1]` and the hue is nonnegative. -/
theorem hsv_to_rgb_range {h s v : ℚ} (hh : 0 ≤ h)
    (hs0 : 0 ≤ s) (hs1 : s ≤ 1) (hv0 : 0 ≤ v) (hv1 : v ≤ 1) :
    let c := hsv_to_rgb h s v
    (0 ≤ c.1 ∧ c.1 ≤ 1) ∧ (0 ≤ c.2.1 ∧ c.2.1 ≤ 1) ∧
      (0 ≤ c.2.2 ∧ c.2.2 ≤ 1) := by
  have hy : 0 ≤ h * 6 := by positivity
  obtain ⟨hf0, hf1⟩ := frac_bounds hy
  set f : ℚ := h * 6 - (intTrunc (h * 6) : ℚ) with hfdef
  have hp0 : 0 ≤ v * (1 - s) := by nlinarith
  have hp1 : v * (1 - s) ≤ 1 := by nlinarith
  have hq0 : 0 ≤ v * (1 - s * f) := by nlinarith
  have hq1 : v * (1 - s * f) ≤ 1 := by nlinarith
  have ht0 : 0 ≤ v * (1 - s * (1 - f)) := by nlinarith
  have ht1 : v * (1 - s * (1 - f)) ≤ 1 := by nlinarith
  show (let c := hsv_to_rgb h s v; _)
  simp only [hsv_to_rgb, ← hfdef]
  split_ifs <;>
    exact ⟨⟨by assumption, by assumption⟩, ⟨by assumption, by assumption⟩,
      by assumption, by assumption⟩

theorem linspaceEP_mem {a b x : ℚ} {n : ℕ} (hab : a ≤ b)
    (hx : x ∈ linspaceEP a b n) : a ≤ x ∧ x ≤ b := by
  unfold linspaceEP at hx
  split_ifs at hx with h1
  · rw [List.mem_singleton] at hx
    subst hx; exact ⟨le_rfl, hab⟩
  · simp only [List.mem_map, List.mem_range] at hx
    obtain ⟨i, hi, rfl⟩ := hx
    have hn2 : 2 ≤ n := by omega
    have hd : (0 : ℚ) < (n : ℚ) - 1 := by
      have : (2 : ℚ) ≤ (n : ℚ) := by exact_mod_cast hn2
      linarith
    have hi' : (i : ℚ) ≤ (n : ℚ) - 1 := by
      have : (i : ℚ) + 1 ≤ (n : ℚ) := by exact_mod_cast hi
      linarith
    have hi0 : (0 : ℚ) ≤ (i : ℚ) := by positivity
    constructor
    · have : 0 ≤ (i : ℚ) * (b - a) / ((n : ℚ) - 1) :=
        div_nonneg (mul_nonneg hi0 (sub_nonneg.mpr hab)) (le_of_lt hd)
      linarith
    · have key : (i : ℚ) * (b - a) / ((n : ℚ) - 1) ≤ b - a := by
        rw [div_le_iff hd]
        nlinarith [mul_le_mul_of_nonneg_right hi' (sub_nonneg.mpr hab)]
      linarith

theorem linspaceNoEP_nonneg {x : ℚ} {n : ℕ}
    (hx : x ∈ linspaceNoEP 0 360 n) : 0 ≤ x ∧ x < 360 := by
  unfold linspaceNoEP at hx
  simp only [List.mem_map, List.mem_range] at hx
  obtain ⟨i, hi, rfl⟩ := hx
  have hn : 0 < n := Nat.pos_of_ne_zero (by rintro rfl; omega)
  have hd : (0 : ℚ) < (n : ℚ) := by exact_mod_cast hn
  have hi' : (i : ℚ) < (n : ℚ) := by exact_mod_cast hi
  have hi0 : (0 : ℚ) ≤ (i : ℚ) := by positivity
  constructor
  · positivity
  · rw [zero_add, div_lt_iff hd]
    nlinarith

/-! Palette claims.  Rational arithmetic is sealed by default; open it
up so that concrete palette values can be settled by kernel
evaluation. -/

unseal Rat.add Rat.mul Rat.inv Rat.sub

set_option maxRecDepth 40000

/-- All channels of an RGB byte triple lie in `[0, 255]`. -/
def byteRange (c : RGB) : Prop :=
  0 ≤ c.1 ∧ c.1 ≤ 255 ∧ 0 ≤ c.2.1 ∧ c.2.1 ≤ 255 ∧ 0 ≤ c.2.2 ∧ c.2.2 ≤ 255

theorem hsvToByte_range {h s v : ℚ} (hh : 0 ≤ h) (hs0 : 0 ≤ s) (hs1 : s ≤ 1)
    (hv0 : 0 ≤ v) (hv1 : v ≤ 1) : byteRange (hsvToByte h s v) := by
  obtain ⟨⟨h10, h11⟩, ⟨h20, h21⟩, h30, h31⟩ :=
    hsv_to_rgb_range hh hs0 hs1 hv0 hv1
  unfold hsvToByte byteRange
  obtain ⟨r1, r2⟩ := intTrunc_byte_range h10 h11
  obtain ⟨g1, g2⟩ := intTrunc_byte_range h20 h21
  obtain ⟨b1, b2⟩ := intTrunc_byte_range h30 h31
  exact ⟨r1, r2, g1, g2, b1, b2⟩

theorem rgbCubePalette_range {size : ℕ} {c : RGB}
    (hc : c ∈ rgbCubePalette size) : byteRange c := by
  unfold rgbCubePalette at hc
  replace hc := List.mem_of_mem_take hc
  simp only [List.mem_flatMap, List.mem_map] at hc
  obtain ⟨_, ⟨x, hx, rfl⟩, _, ⟨y, hy, rfl⟩, _, ⟨z, hz, rfl⟩, rfl⟩ := hc
  obtain ⟨hx0, hx1⟩ := linspaceEP_mem (by norm_num) hx
  obtain ⟨hy0, hy1⟩ := linspaceEP_mem (by norm_num) hy
  obtain ⟨hz0, hz1⟩ := linspaceEP_mem (by norm_num) hz
  refine ⟨intTrunc_nonneg hx0, ?_, intTrunc_nonneg hy0, ?_,
    intTrunc_nonneg hz0, ?_⟩ <;>
  · first
    | exact_mod_cast le_trans (intTrunc_le hx0) hx1
    | exact_mod_cast le_trans (intTrunc_le hy0) hy1
    | exact_mod_cast le_trans (intTrunc_le hz0) hz1

theorem hsvGridPalette_range {size : ℕ} {c : RGB}
    (hc : c ∈ hsvGridPalette size) : byteRange c := by
  unfold hsvGridPalette at hc
  replace hc := List.mem_of_mem_take hc
  simp only [List.mem_flatMap, List.mem_map] at hc
  obtain ⟨h, hh, s, hs, v, hv, rfl⟩ := hc
  obtain ⟨hh0, _⟩ := linspaceNoEP_nonneg hh
  obtain ⟨hs0, hs1⟩ := linspaceEP_mem (by norm_num) hs
  obtain ⟨hv0, hv1⟩ := linspaceEP_mem (by norm_num) hv
  exact hsvToByte_range (by positivity) (by linarith) hs1 (by linarith) hv1

/-- C6.  `generate_full_spectrum_palette` returns exactly `size`
entries, all of whose channels are integers in `[0, 255]`; when the
deterministic enumeration falls short, the remaining slots come from
the random HSV stream (hue in `[0,1)`, saturation and value in
`[0.8, 1]`). -/
theorem generate_palette_size_and_range (size : ℕ) (rand : ℕ → ℚ × ℚ × ℚ)
    (hsize : 1 ≤ size)
    (hrand : ∀ i, 0 ≤ (rand i).1 ∧ (rand i).1 < 1 ∧
      8/10 ≤ (rand i).2.1 ∧ (rand i).2.1 ≤ 1 ∧
      8/10 ≤ (rand i).2.2 ∧ (rand i).2.2 ≤ 1) :
    (generate_full_spectrum_palette size rand).length = size ∧
      ∀ c ∈ generate_full_spectrum_palette size rand, byteRange c := by
  constructor
  · unfold generate_full_spectrum_palette
    simp only [List.length_take, List.length_append, List.length_map,
      List.length_range]
    omega
  · intro c hc
    unfold generate_full_spectrum_palette at hc
    replace hc := List.mem_of_mem_take hc
    rw [List.mem_append] at hc
    rcases hc with hdet | hfill
    · unfold paletteDet at hdet
      split_ifs at hdet
      · exact rgbCubePalette_range hdet
      · exact hsvGridPalette_range hdet
    · simp only [List.mem_map, List.mem_range] at hfill
      obtain ⟨i, _, rfl⟩ := hfill
      obtain ⟨q1, q2, q3, q4, q5, q6⟩ := hrand i
      exact hsvToByte_range q1 (by linarith) q4 (by linarith) q6

/-- Witness for C6 at `size = 2`, which exercises the random-fill
path (the deterministic cube yields a single color). -/
theorem generate_palette_size_and_range_witness :
    (generate_full_spectrum_palette 2
      (fun _ => ((0 : ℚ), (9/10 : ℚ), (9/10 : ℚ)))).length = 2 :=
  (generate_palette_size_and_range 2
    (fun _ => ((0 : ℚ), (9/10 : ℚ), (9/10 : ℚ)))
    (by norm_num) (fun _ => by norm_num)).1

theorem linspaceEP_length (a b : ℚ) (n : ℕ) :
    (linspaceEP a b n).length = n := by
  unfold linspaceEP
  split_ifs with h
  · simp [h]
  · simp

theorem length_flatMap_const {α β : Type} (l : List α) (f : α → List β)
    (m : ℕ) (h : ∀ a, (f a).length = m) :
    (l.flatMap f).length = l.length * m := by
  induction l with
  | nil => simp
  | cons a t ih => simp [List.flatMap_cons, ih, h a, Nat.succ_mul, Nat.add_comm]

theorem rgbCubePalette_length (size : ℕ) :
    (rgbCubePalette size).length = min size (roundCbrt size ^ 3) := by
  unfold rgbCubePalette
  rw [List.length_take]
  congr 1
  rw [length_flatMap_const _ _ (roundCbrt size ^ 2)
    (fun r => by
      rw [length_flatMap_const _ _ (roundCbrt size)
        (fun g => by simp [linspaceEP_length])]
      simp [linspaceEP_length]
      ring)]
  simp [linspaceEP_length]
  ring

theorem generate_eq_det {size : ℕ} (rand : ℕ → ℚ × ℚ × ℚ)
    (h : (paletteDet size).length = size) :
    generate_full_spectrum_palette size rand = paletteDet size := by
  unfold generate_full_spectrum_palette
  dsimp only
  rw [h, Nat.sub_self]
  simp only [List.range_zero, List.map_nil, List.append_nil]
  exact List.take_of_length_le (le_of_eq h)

set_option maxHeartbeats 2000000 in
/-- For the exact-cube sizes the deterministic RGB-cube enumeration is
duplicate-free.  Decided by exhaustive kernel evaluation over all
`N < 217`. -/
theorem cube_nodup_fact :
    ∀ N < 217, roundCbrt N ^ 3 = N → (rgbCubePalette N).Nodup := by decide

/-- C7.  For `N ≤ 216` the palette enumerates the evenly-spaced RGB
cube (`steps = round(N^(1/3))`, R outermost, B innermost, stopping at
`N`); `N = 8` yields exactly the corners of the RGB cube, and every
`N ≤ 216` that is the full cube grid (`steps³ = N`) has zero duplicate
triples. -/
theorem palette_cube_corners_nodup :
    (∀ rand : ℕ → ℚ × ℚ × ℚ, generate_full_spectrum_palette 8 rand =
      [(0, 0, 0), (0, 0, 255), (0, 255, 0), (0, 255, 255),
       (255, 0, 0), (255, 0, 255), (255, 255, 0), (255, 255, 255)]) ∧
    (∀ N < 217, roundCbrt N ^ 3 = N → ∀ rand : ℕ → ℚ × ℚ × ℚ,
      (generate_full_spectrum_palette N rand).Nodup) := by
  have hdet : ∀ N, N ≤ 216 → paletteDet N = rgbCubePalette N := by
    intro N hN
    unfold paletteDet
    rw [if_pos hN]
  have hlen : ∀ N, N ≤ 216 → roundCbrt N ^ 3 = N →
      (paletteDet N).length = N := by
    intro N hN hcube
    rw [hdet N hN, rgbCubePalette_length, hcube, Nat.min_self]
  constructor
  · intro rand
    rw [generate_eq_det rand (hlen 8 (by norm_num) (by decide)),
      hdet 8 (by norm_num)]
    decide
  · intro N hN hcube rand
    rw [generate_eq_det rand (hlen N (by omega) hcube), hdet N (by omega)]
    exact cube_nodup_fact N hN hcube

/-- Witness for C7 at `N = 27` with a constant random stream. -/
theorem palette_cube_corners_nodup_witness :
    (generate_full_spectrum_palette 27
      (fun _ => ((0 : ℚ), (9/10 : ℚ), (9/10 : ℚ)))).Nodup :=
  palette_cube_corners_nodup.2 27 (by norm_num) (by decide) _

/-- C8 counterexample: for `N = 217` the palette produced by the code
(`hue_steps = int(np.sqrt(2N))`, i.e. the floor) differs from the
palette described by the claim (`hue_steps = round(sqrt(2N))`): the
entries at index 10 are `(178, 103, 71)` and `(178, 102, 71)`
respectively. -/
theorem palette_hue_steps_round_cex :
    ¬ (generate_full_spectrum_palette 217
        (fun _ => ((0 : ℚ), (9/10 : ℚ), (9/10 : ℚ))) =
      generatePaletteSpecRound 217
        (fun _ => ((0 : ℚ), (9/10 : ℚ), (9/10 : ℚ)))) := by
  intro hEq
  exact absurd
    (congrArg (fun l => l.getD 10 ((0 : ℤ), (0 : ℤ), (0 : ℤ))) hEq)
    (by decide)

/-- C8 amended: for `N > 216` the palette is generated in HSV space
with `hue_steps = ⌊sqrt(2N)⌋` (floor, not round), `sat_steps` and
`val_steps` each at least 2 derived from the remaining budget, hue
enumerated over `[0, 360)`, saturation over `[0.6, 1.0]`, value over
`[0.7, 1.0]`, nested with hue outermost, each triple converted to an
RGB byte triple, stopping once `N` colors are collected (random fill
afterwards if the grid falls short). -/
theorem palette_hsv_floor_enumeration (N : ℕ) (hN : 216 < N)
    (rand : ℕ → ℚ × ℚ × ℚ) :
    (generate_full_spectrum_palette N rand =
      (((linspaceNoEP 0 360 (sqrtFloor (N * 2))).flatMap fun h =>
        (linspaceEP (6/10) 1 (max 2 (N / sqrtFloor (N * 2) / 2))).flatMap
          fun s =>
        (linspaceEP (7/10) 1 (max 2 (N / sqrtFloor (N * 2) /
            (max 2 (N / sqrtFloor (N * 2) / 2))))).map fun v =>
          hsvToByte (h / 360) s v).take N ++
        (List.range (N - (hsvGridPalette N).length)).map fun i =>
          hsvToByte (rand i).1 (rand i).2.1 (rand i).2.2).take N) ∧
    (∀ h ∈ linspaceNoEP 0 360 (sqrtFloor (N * 2)), 0 ≤ h ∧ h < 360) ∧
    (∀ s ∈ linspaceEP (6/10) 1 (max 2 (N / sqrtFloor (N * 2) / 2)),
      6/10 ≤ s ∧ s ≤ 1) ∧
    (∀ v ∈ linspaceEP (7/10) 1 (max 2 (N / sqrtFloor (N * 2) /
        (max 2 (N / sqrtFloor (N * 2) / 2)))), 7/10 ≤ v ∧ v ≤ 1) ∧
    (2 ≤ max 2 (N / sqrtFloor (N * 2) / 2) ∧
      2 ≤ max 2 (N / sqrtFloor (N * 2) / (max 2 (N / sqrtFloor (N * 2) / 2)))) := by
  refine ⟨?_, ?_, ?_, ?_, le_max_left _ _, le_max_left _ _⟩
  · unfold generate_full_spectrum_palette paletteDet
    rw [if_neg (by omega)]
    rfl
  · exact fun h hh => linspaceNoEP_nonneg hh
  · exact fun s hs => linspaceEP_mem (by norm_num) hs
  · exact fun v hv => linspaceEP_mem (by norm_num) hv

/-- Witness for C8's amended statement at `N = 217`. -/
theorem palette_hsv_floor_enumeration_witness :
    2 ≤ max 2 (217 / sqrtFloor (217 * 2) / 2) :=
  (palette_hsv_floor_enumeration 217 (by norm_num)
    (fun _ => ((0 : ℚ), (9/10 : ℚ), (9/10 : ℚ)))).2.2.2.2.1

/-! `normalize_mesh` (claim C2). -/

theorem rmin_def (a b : ℚ) : rmin a b = if a ≤ b then a else b := rfl

theorem rmax_def (a b : ℚ) : rmax a b = if a ≤ b then b else a := rfl

theorem foldl_map_comm {op : ℚ → ℚ → ℚ} (f : ℚ → ℚ)
    (hf : ∀ a b, f (op a b) = op (f a) (f b)) :
    ∀ (l : List ℚ) (x : ℚ), (l.map f).foldl op (f x) = f (l.foldl op x)
  | [], _ => rfl
  | y :: ys, x => by
    simp only [List.map_cons, List.foldl_cons, ← hf]
    exact foldl_map_comm f hf ys (op x y)

theorem affine_comm_rmin (k c a b : ℚ) (hk : 0 < k) :
    k * (rmin a b - c) = rmin (k * (a - c)) (k * (b - c)) := by
  rw [rmin_def, rmin_def]
  rcases le_or_lt a b with h | h
  · rw [if_pos h, if_pos (by nlinarith)]
  · rw [if_neg (by linarith), if_neg (by nlinarith)]

theorem affine_comm_rmax (k c a b : ℚ) (hk : 0 < k) :
    k * (rmax a b - c) = rmax (k * (a - c)) (k * (b - c)) := by
  rw [rmax_def, rmax_def]
  rcases le_or_lt a b with h | h
  · rw [if_pos h, if_pos (by nlinarith)]
  · rw [if_neg (by linarith), if_neg (by nlinarith)]

theorem axisMin_map_affine (l : List ℚ) (hl : l ≠ []) (k c : ℚ)
    (hk : 0 < k) :
    axisMin (l.map fun x => k * (x - c)) = k * (axisMin l - c) := by
  match l with
  | [] => exact absurd rfl hl
  | y :: ys =>
    show (ys.map fun x => k * (x - c)).foldl rmin (k * (y - c)) = _
    rw [foldl_map_comm (fun x => k * (x - c))
      (fun a b => affine_comm_rmin k c a b hk) ys y]
    rfl

theorem axisMax_map_affine (l : List ℚ) (hl : l ≠ []) (k c : ℚ)
    (hk : 0 < k) :
    axisMax (l.map fun x => k * (x - c)) = k * (axisMax l - c) := by
  match l with
  | [] => exact absurd rfl hl
  | y :: ys =>
    show (ys.map fun x => k * (x - c)).foldl rmax (k * (y - c)) = _
    rw [foldl_map_comm (fun x => k * (x - c))
      (fun a b => affine_comm_rmax k c a b hk) ys y]
    rfl

theorem foldl_rmin_le_init : ∀ (l : List ℚ) (x : ℚ), l.foldl rmin x ≤ x
  | [], x => le_refl x
  | y :: ys, x => by
    refine le_trans (foldl_rmin_le_init ys (rmin x y)) ?_
    rw [rmin_def]
    split_ifs with h
    · exact le_refl x
    · linarith

theorem init_le_foldl_rmax : ∀ (l : List ℚ) (x : ℚ), x ≤ l.foldl rmax x
  | [], x => le_refl x
  | y :: ys, x => by
    refine le_trans ?_ (init_le_foldl_rmax ys (rmax x y))
    rw [rmax_def]
    split_ifs with h
    · exact h
    · exact le_refl x

theorem axisMin_le_axisMax {l : List ℚ} (hl : l ≠ []) :
    axisMin l ≤ axisMax l := by
  match l with
  | [] => exact absurd rfl hl
  | y :: ys =>
    exact le_trans (foldl_rmin_le_init ys y) (init_le_foldl_rmax ys y)

theorem le_rmax_left (a b : ℚ) : a ≤ rmax a b := by
  rw [rmax_def]; split_ifs with h
  · exact h
  · exact le_refl a

theorem rmax_smul (k a b : ℚ) (hk : 0 < k) :
    rmax (k * a) (k * b) = k * rmax a b := by
  rw [rmax_def, rmax_def]
  rcases le_or_lt a b with h | h
  · rw [if_pos h, if_pos (by nlinarith)]
  · rw [if_neg (by nlinarith), if_neg (by linarith)]

theorem meshExtent_nonneg {m : Mesh} (hne : m.vertices ≠ []) :
    0 ≤ meshExtent m := by
  have h1 : (m.vertices.map fun v => v.1) ≠ [] := by
    simpa using hne
  have := axisMin_le_axisMax h1
  refine le_trans ?_ (le_rmax_left _ _)
  exact sub_nonneg.mpr this

/-- C2.  `normalize_mesh` leaves the face list, the colors and the
vertex count unchanged; for nonzero bounding-box extent the result's
bounding box is centered at the origin (`min + max = 0` per axis) and
its largest dimension is exactly `2`; for zero extent the scale
factor falls back to `1`, i.e. vertices are mapped by
`v ↦ 2 * (v - center)`. -/
theorem normalize_mesh_spec (m : Mesh) (hne : m.vertices ≠ []) :
    (normalize_mesh m).faces = m.faces ∧
    (normalize_mesh m).vertexColors = m.vertexColors ∧
    (normalize_mesh m).vertices.length = m.vertices.length ∧
    (meshExtent m ≠ 0 →
      meshMin (normalize_mesh m) + meshMax (normalize_mesh m) =
        ((0 : ℚ), (0 : ℚ), (0 : ℚ)) ∧
      meshExtent (normalize_mesh m) = 2) ∧
    (meshExtent m = 0 →
      (normalize_mesh m).vertices =
        m.vertices.map fun v => (2 : ℚ) • (v - meshCenter m)) := by
  unfold normalize_mesh
  rw [if_neg hne]
  dsimp only
  refine ⟨rfl, rfl, by simp, ?_, ?_⟩
  · intro hnz
    set s := meshExtent m with hs
    rw [if_neg hnz]
    have hs0 : 0 < s := lt_of_le_of_ne (meshExtent_nonneg hne) (Ne.symm hnz)
    set k : ℚ := 1 / (s * (1/2)) with hk
    have hkpos : 0 < k := by
      rw [hk]; positivity
    have hxne : (m.vertices.map fun v => v.1) ≠ [] := by simpa using hne
    have hyne : (m.vertices.map fun v => v.2.1) ≠ [] := by simpa using hne
    have hzne : (m.vertices.map fun v => v.2.2) ≠ [] := by simpa using hne
    have hmap1 : ((m.vertices.map fun v => k • (v - meshCenter m)).map
        fun v => v.1) =
        (m.vertices.map fun v => v.1).map
          fun x => k * (x - (meshCenter m).1) := by
      simp [Prod.smul_fst, Prod.fst_sub, smul_eq_mul, Function.comp]
    have hmap2 : ((m.vertices.map fun v => k • (v - meshCenter m)).map
        fun v => v.2.1) =
        (m.vertices.map fun v => v.2.1).map
          fun x => k * (x - (meshCenter m).2.1) := by
      simp [Prod.smul_snd, Prod.smul_fst, Prod.snd_sub, Prod.fst_sub,
        smul_eq_mul, Function.comp]
    have hmap3 : ((m.vertices.map fun v => k • (v - meshCenter m)).map
        fun v => v.2.2) =
        (m.vertices.map fun v => v.2.2).map
          fun x => k * (x - (meshCenter m).2.2) := by
      simp [Prod.smul_snd, Prod.snd_sub, smul_eq_mul, Function.comp]
    have hmin1 : axisMin ((m.vertices.map fun v => k • (v - meshCenter m)).map
        fun v => v.1) = k * (axisMin (m.vertices.map fun v => v.1) -
          (meshCenter m).1) := by
      rw [hmap1]; exact axisMin_map_affine _ hxne _ _ hkpos
    have hmin2 : axisMin ((m.vertices.map fun v => k • (v - meshCenter m)).map
        fun v => v.2.1) = k * (axisMin (m.vertices.map fun v => v.2.1) -
          (meshCenter m).2.1) := by
      rw [hmap2]; exact axisMin_map_affine _ hyne _ _ hkpos
    have hmin3 : axisMin ((m.vertices.map fun v => k • (v - meshCenter m)).map
        fun v => v.2.2) = k * (axisMin (m.vertices.map fun v => v.2.2) -
          (meshCenter m).2.2) := by
      rw [hmap3]; exact axisMin_map_affine _ hzne _ _ hkpos
    have hmax1 : axisMax ((m.vertices.map fun v => k • (v - meshCenter m)).map
        fun v => v.1) = k * (axisMax (m.vertices.map fun v => v.1) -
          (meshCenter m).1) := by
      rw [hmap1]; exact axisMax_map_affine _ hxne _ _ hkpos
    have hmax2 : axisMax ((m.vertices.map fun v => k • (v - meshCenter m)).map
        fun v => v.2.1) = k * (axisMax (m.vertices.map fun v => v.2.1) -
          (meshCenter m).2.1) := by
      rw [hmap2]; exact axisMax_map_affine _ hyne _ _ hkpos
    have hmax3 : axisMax ((m.vertices.map fun v => k • (v - meshCenter m)).map
        fun v => v.2.2) = k * (axisMax (m.vertices.map fun v => v.2.2) -
          (meshCenter m).2.2) := by
      rw [hmap3]; exact axisMax_map_affine _ hzne _ _ hkpos
    have hc1 : (meshCenter m).1 = (1/2) * (axisMin (m.vertices.map fun v => v.1)
        + axisMax (m.vertices.map fun v => v.1)) := by
      simp [meshCenter, meshMin, meshMax, Prod.smul_fst, smul_eq_mul]
    have hc2 : (meshCenter m).2.1 =
        (1/2) * (axisMin (m.vertices.map fun v => v.2.1)
        + axisMax (m.vertices.map fun v => v.2.1)) := by
      simp [meshCenter, meshMin, meshMax, Prod.smul_snd, Prod.smul_fst,
        smul_eq_mul]
    have hc3 : (meshCenter m).2.2 =
        (1/2) * (axisMin (m.vertices.map fun v => v.2.2)
        + axisMax (m.vertices.map fun v => v.2.2)) := by
      simp [meshCenter, meshMin, meshMax, Prod.smul_snd, smul_eq_mul]
    constructor
    · show (_ + _, _ + _, _ + _) = ((0:ℚ), (0:ℚ), (0:ℚ))
      refine Prod.ext ?_ (Prod.ext ?_ ?_) <;> dsimp only [meshMin, meshMax]
      · rw [hmin1, hmax1, hc1]; ring
      · rw [hmin2, hmax2, hc2]; ring
      · rw [hmin3, hmax3, hc3]; ring
    · show rmax _ (rmax _ _) = 2
      dsimp only [meshMin, meshMax]
      rw [hmin1, hmax1, hmin2, hmax2, hmin3, hmax3]
      have e1 : ∀ mn mx c : ℚ, k * (mx - c) - k * (mn - c) = k * (mx - mn) := by
        intro mn mx c; ring
      rw [e1, e1, e1, rmax_smul _ _ _ hkpos, rmax_smul _ _ _ hkpos]
      have : rmax (axisMax (m.vertices.map fun v => v.1) -
          axisMin (m.vertices.map fun v => v.1))
          (rmax (axisMax (m.vertices.map fun v => v.2.1) -
            axisMin (m.vertices.map fun v => v.2.1))
          (axisMax (m.vertices.map fun v => v.2.2) -
            axisMin (m.vertices.map fun v => v.2.2))) = s := rfl
      rw [this, hk]
      field_simp
  · intro hz
    rw [if_pos hz]
    refine List.map_congr_left fun v _ => ?_
    norm_num

/-- Witness for C2 at a concrete two-vertex mesh of extent 4. -/
theorem normalize_mesh_spec_witness :
    meshExtent (normalize_mesh
      ⟨[((0:ℚ),(0:ℚ),(0:ℚ)), ((2:ℚ),(4:ℚ),(0:ℚ))], [(0,1,1)], none⟩) = 2 :=
  ((normalize_mesh_spec _ (by decide)).2.2.2.1 (by decide)).2

/-! `enhance_sharpness` (claims C3, C4). -/

theorem sharpStep_char (vs : List Vec3) (faces : List (ℕ × ℕ × ℕ)) (i : ℕ) :
    sharpStep vs faces i (vs.getD i vzero) =
      if oneRing vs faces i = [] then vs.getD i vzero
      else if isSharpAt vs faces i then vs.getD i vzero
      else blendAt vs faces i := by
  unfold sharpStep
  dsimp only
  rw [show neighborsOf vs.length faces i = oneRing vs faces i from rfl,
    show ((oneRing vs faces i).map fun j => vs.getD j vzero - vs.getD i vzero)
      = edgesAt vs faces i from rfl]
  by_cases h1 : oneRing vs faces i = []
  · rw [if_pos h1, if_pos h1]
  · rw [if_neg h1, if_neg h1]
    rw [if_congr (List.any_eq_true.trans Iff.rfl) rfl rfl]
    simp only [isSharpAt]
    by_cases h2 : ∃ x ∈ consecPairs (edgesAt vs faces i),
      sharpPair x.1 x.2 = true
    · rw [if_pos h2, if_pos h2]
    · rw [if_neg h2, if_neg h2]
      rfl

theorem sharpIter_char (faces : List (ℕ × ℕ × ℕ)) (vs : List Vec3)
    (i : ℕ) (h : i < vs.length) :
    (sharpIter faces vs).getD i vzero =
      if oneRing vs faces i = [] then vs.getD i vzero
      else if isSharpAt vs faces i then vs.getD i vzero
      else blendAt vs faces i := by
  have hlen : i < (sharpIter faces vs).length := by
    simpa [sharpIter] using h
  rw [List.getD_eq_getElem _ vzero hlen]
  have : (sharpIter faces vs)[i] = sharpStep vs faces i (vs.get ⟨i, h⟩) := by
    simp [sharpIter]
  rw [this, show vs.get ⟨i, h⟩ = vs.getD i vzero from
    (List.getD_eq_getElem _ vzero h).symm]
  exact sharpStep_char vs faces i

theorem sharpIter_length (faces : List (ℕ × ℕ × ℕ)) (vs : List Vec3) :
    (sharpIter faces vs).length = vs.length := by
  simp [sharpIter]

/-- C3 counterexample: in the mesh with vertices `(0,0,0)`, `(1,0,0)`
and the single (degenerate) face `(0,1,1)`, vertex 0 has exactly one
one-ring neighbor — fewer than 2 — yet `enhance_sharpness` moves it
(to `(49/125, 0, 0)` after the three iterations) instead of skipping
it. -/
theorem sharpness_one_neighbor_moves_cex :
    (oneRing [((0:ℚ),(0:ℚ),(0:ℚ)), ((1:ℚ),(0:ℚ),(0:ℚ))] [(0,1,1)] 0).length
        < 2 ∧
    (enhance_sharpness ⟨[((0:ℚ),(0:ℚ),(0:ℚ)), ((1:ℚ),(0:ℚ),(0:ℚ))],
        [(0, 1, 1)], none⟩).vertices.getD 0 vzero ≠
      ((0:ℚ),(0:ℚ),(0:ℚ)) := by decide

/-- C3 amended: `enhance_sharpness` runs exactly 3 simultaneous
iterations over pre-iteration positions, sharing faces and colors; per
vertex and iteration: a vertex with an empty one-ring is left
unchanged; a vertex with a sharp consecutive neighbor-direction pair
(angle above 60°) is left unmoved; every other vertex — including one
with exactly one neighbor, which the code never classifies sharp —
moves to `0.8 * old + 0.2 * neighbor-centroid`.  The one-ring is the
set of vertices sharing a face with the vertex. -/
theorem sharpness_per_vertex_rule (m : Mesh) :
    (enhance_sharpness m).faces = m.faces ∧
    (enhance_sharpness m).vertexColors = m.vertexColors ∧
    (enhance_sharpness m).vertices =
      sharpIter m.faces (sharpIter m.faces (sharpIter m.faces m.vertices)) ∧
    (∀ (faces : List (ℕ × ℕ × ℕ)) (vs : List Vec3) (i : ℕ),
      i < vs.length →
      (oneRing vs faces i = [] →
        (sharpIter faces vs).getD i vzero = vs.getD i vzero) ∧
      (isSharpAt vs faces i →
        (sharpIter faces vs).getD i vzero = vs.getD i vzero) ∧
      (oneRing vs faces i ≠ [] → ¬ isSharpAt vs faces i →
        (sharpIter faces vs).getD i vzero = blendAt vs faces i) ∧
      ((oneRing vs faces i).length = 1 →
        (sharpIter faces vs).getD i vzero = blendAt vs faces i)) ∧
    (∀ (vs : List Vec3) (faces : List (ℕ × ℕ × ℕ)) (i j : ℕ),
      j ∈ oneRing vs faces i ↔
        j < vs.length ∧ j ≠ i ∧ ∃ f ∈ faces, faceHas f i ∧ faceHas f j) := by
  refine ⟨rfl, rfl, rfl, ?_, ?_⟩
  · intro faces vs i hi
    refine ⟨?_, ?_, ?_, ?_⟩
    · intro h1
      rw [sharpIter_char faces vs i hi, if_pos h1]
    · intro h2
      rw [sharpIter_char faces vs i hi]
      by_cases h1 : oneRing vs faces i = []
      · rw [if_pos h1]
      · rw [if_neg h1, if_pos h2]
    · intro h1 h2
      rw [sharpIter_char faces vs i hi, if_neg h1, if_neg h2]
    · intro hone
      have h1 : oneRing vs faces i ≠ [] := by
        intro hc; rw [hc] at hone; simp at hone
      have h2 : ¬ isSharpAt vs faces i := by
        intro ⟨p, hp, _⟩
        have : consecPairs (edgesAt vs faces i) = [] := by
          unfold consecPairs edgesAt
          match hl : oneRing vs faces i, hone with
          | [j], _ => rfl
        rw [this] at hp
        exact absurd hp (List.not_mem_nil p)
      rw [sharpIter_char faces vs i hi, if_neg h1, if_neg h2]
  · intro vs faces i j
    unfold oneRing neighborsOf
    rw [List.mem_filter, List.mem_range]
    constructor
    · rintro ⟨hj, hcond⟩
      rw [Bool.and_eq_true, bne_iff_ne, List.any_eq_true] at hcond
      obtain ⟨hne, f, hf, hff⟩ := hcond
      rw [Bool.and_eq_true] at hff
      exact ⟨hj, hne, f, hf, hff.1, hff.2⟩
    · rintro ⟨hj, hne, f, hf, hfi, hfj⟩
      refine ⟨hj, ?_⟩
      rw [Bool.and_eq_true, bne_iff_ne, List.any_eq_true]
      exact ⟨hne, f, hf, by rw [Bool.and_eq_true]; exact ⟨hfi, hfj⟩⟩

/-- Witness for C3's amended statement: the one-neighbor vertex of the
counterexample mesh moves to the blend value in one iteration. -/
theorem sharpness_per_vertex_rule_witness :
    (sharpIter [(0, 1, 1)]
        [((0:ℚ),(0:ℚ),(0:ℚ)), ((1:ℚ),(0:ℚ),(0:ℚ))]).getD 0 vzero =
      blendAt [((0:ℚ),(0:ℚ),(0:ℚ)), ((1:ℚ),(0:ℚ),(0:ℚ))] [(0, 1, 1)] 0 :=
  ((sharpness_per_vertex_rule ⟨[], [], none⟩).2.2.2.1 [(0, 1, 1)]
    [((0:ℚ),(0:ℚ),(0:ℚ)), ((1:ℚ),(0:ℚ),(0:ℚ))] 0 (by norm_num)).2.2.2
    (by decide)

/-- C4 counterexample: in the mesh with duplicated vertex positions
`(0,0,0), (0,0,0), (1,0,0)` and face `(0,1,2)`, vertex 0 has a
zero-length neighbor-direction vector (to vertex 1), yet the pass does
not leave that vertex unmoved: the zero-length pair merely evaluates
non-sharp (`nan` comparisons are false) and the vertex is smoothed. -/
theorem sharpness_zero_edge_moved_cex :
    (edgesAt [((0:ℚ),(0:ℚ),(0:ℚ)), ((0:ℚ),(0:ℚ),(0:ℚ)),
        ((1:ℚ),(0:ℚ),(0:ℚ))] [(0, 1, 2)] 0).getD 0 ((1:ℚ),(1:ℚ),(1:ℚ)) =
      vzero ∧
    (enhance_sharpness ⟨[((0:ℚ),(0:ℚ),(0:ℚ)), ((0:ℚ),(0:ℚ),(0:ℚ)),
        ((1:ℚ),(0:ℚ),(0:ℚ))], [(0, 1, 2)], none⟩).vertices.getD 0 vzero ≠
      ((0:ℚ),(0:ℚ),(0:ℚ)) := by decide

/-- C4 amended: a zero-length edge vector never raises and never marks
a pair sharp (the `nan` comparison is false); the pass always
completes for every vertex (lengths, faces and colors preserved); a
vertex whose consecutive pairs are all non-sharp — in particular
because of zero-length edges — is smoothed to the blend value, not
left unmoved.  There is no per-vertex exception handling: the only
`try/except` wraps the whole pass. -/
theorem sharpness_zero_edge_isolation :
    (∀ u v : Vec3, u = vzero ∨ v = vzero → sharpPair u v = false) ∧
    (∀ m : Mesh,
      (enhance_sharpness m).vertices.length = m.vertices.length ∧
      (enhance_sharpness m).faces = m.faces ∧
      (enhance_sharpness m).vertexColors = m.vertexColors) ∧
    (∀ (faces : List (ℕ × ℕ × ℕ)) (vs : List Vec3) (i : ℕ),
      i < vs.length → oneRing vs faces i ≠ [] → ¬ isSharpAt vs faces i →
      (sharpIter faces vs).getD i vzero = blendAt vs faces i) := by
  refine ⟨?_, ?_, ?_⟩
  · intro u v h
    unfold sharpPair
    rw [if_pos]
    exact h
  · intro m
    refine ⟨?_, rfl, rfl⟩
    show (sharpIter _ (sharpIter _ (sharpIter _ _))).length = _
    rw [sharpIter_length, sharpIter_length, sharpIter_length]
  · intro faces vs i hi h1 h2
    rw [sharpIter_char faces vs i hi, if_neg h1, if_neg h2]

/-- Witness for C4's amended statement. -/
theorem sharpness_zero_edge_isolation_witness :
    sharpPair vzero ((1:ℚ),(0:ℚ),(0:ℚ)) = false :=
  sharpness_zero_edge_isolation.1 _ _ (Or.inl rfl)

/-! `enhance_colors` (claim C9) and `process_mesh` (claim C1). -/

/-- C9.  `enhance_colors` leaves geometry untouched; a mesh that
already carries vertex colors passes them through unchanged; a mesh
without vertex colors gets one color per vertex, each drawn from the
palette by the injected index stream and stored with alpha 255, so
that the output color list has length equal to the vertex count and
every assigned RGB triple is a member of the palette. -/
theorem enhance_colors_spec (palette : List RGB) (choice : ℕ → ℕ)
    (m : Mesh) :
    ((enhance_colors palette choice m).vertices = m.vertices ∧
      (enhance_colors palette choice m).faces = m.faces) ∧
    (∀ cs, m.vertexColors = some cs →
      (enhance_colors palette choice m).vertexColors = some cs) ∧
    (m.vertexColors = none → (∀ i, choice i < palette.length) →
      ∃ cs, (enhance_colors palette choice m).vertexColors = some cs ∧
        cs.length = m.vertices.length ∧
        ∀ c ∈ cs, (c.1, c.2.1, c.2.2.1) ∈ palette ∧ c.2.2.2 = 255) := by
  refine ⟨?_, ?_, ?_⟩
  · unfold enhance_colors
    cases m.vertexColors <;> exact ⟨rfl, rfl⟩
  · intro cs hcs
    unfold enhance_colors
    rw [hcs]
  · intro h0 hch
    refine ⟨(List.range m.vertices.length).map fun i =>
      let c := palette.getD (choice i) ((0 : ℤ), (0 : ℤ), (0 : ℤ))
      (c.1, c.2.1, c.2.2, (255 : ℤ)), ?_, ?_, ?_⟩
    · unfold enhance_colors
      rw [h0]
    · simp
    · intro c hc
      simp only [List.mem_map, List.mem_range] at hc
      obtain ⟨i, _, rfl⟩ := hc
      dsimp only
      constructor
      · rw [List.getD_eq_getElem _ _ (hch i)]
        exact List.getElem_mem _
      · rfl

/-- Witness for C9: a one-vertex colorless mesh with a one-entry
palette. -/
theorem enhance_colors_spec_witness :
    ∃ cs, (enhance_colors [((1:ℤ), (2:ℤ), (3:ℤ))] (fun _ => 0)
        ⟨[vzero], [], none⟩).vertexColors = some cs ∧
      cs.length = 1 ∧
      ∀ c ∈ cs, (c.1, c.2.1, c.2.2.1) ∈ [((1:ℤ), (2:ℤ), (3:ℤ))] ∧
        c.2.2.2 = 255 :=
  (enhance_colors_spec [((1:ℤ), (2:ℤ), (3:ℤ))] (fun _ => 0)
    ⟨[vzero], [], none⟩).2.2 rfl (fun _ => by norm_num)

/-- C1.  `process_mesh` fails (returns `None`) exactly when the
cleaning stage fails, and on success its result is the composition
Enhance Colors ∘ Enhance Sharpness ∘ Normalize applied to the cleaned
mesh — the later stages are total functions (each recovers
internally) and never abort the pipeline. -/
theorem pipeline_fails_iff_cleaner_fails (palette : List RGB)
    (choice : ℕ → ℕ) (m : Mesh) :
    (process_mesh palette choice m = none ↔ clean_mesh m = none) ∧
    (∀ c, clean_mesh m = some c →
      process_mesh palette choice m =
        some (enhance_colors palette choice
          (enhance_sharpness (normalize_mesh c)))) := by
  constructor
  · unfold process_mesh
    cases h : clean_mesh m <;> simp
  · intro c hc
    unfold process_mesh
    rw [hc]

/-- Witness for C1 at the empty mesh (which cleaning maps to itself). -/
theorem pipeline_fails_iff_cleaner_fails_witness :
    process_mesh [] (fun _ => 0) ⟨[], [], none⟩ =
      some (enhance_colors [] (fun _ => 0)
        (enhance_sharpness (normalize_mesh ⟨[], [], none⟩))) :=
  (pipeline_fails_iff_cleaner_fails [] (fun _ => 0) ⟨[], [], none⟩).2
    ⟨[], [], none⟩ (by decide)

/-! `get_camera_transform` (claim C10). -/

theorem rdot_self_nonneg (v : Vec3R) : 0 ≤ rdot v v := by
  unfold rdot
  nlinarith [mul_self_nonneg v.1, mul_self_nonneg v.2.1,
    mul_self_nonneg v.2.2]

theorem rnorm_mul_self (v : Vec3R) : rnorm v * rnorm v = rdot v v :=
  Real.mul_self_sqrt (rdot_self_nonneg v)

theorem rdot_self_pos_of_fst {v : Vec3R} (h : v.1 ≠ 0) : 0 < rdot v v := by
  unfold rdot
  nlinarith [mul_self_nonneg v.2.1, mul_self_nonneg v.2.2,
    mul_self_pos.mpr h]

theorem rnorm_pos_of_fst {v : Vec3R} (h : v.1 ≠ 0) : 0 < rnorm v :=
  Real.sqrt_pos.mpr (rdot_self_pos_of_fst h)

theorem rdot_smul_smul (k l : ℝ) (u v : Vec3R) :
    rdot (k • u) (l • v) = (k * l) * rdot u v := by
  unfold rdot
  simp only [Prod.smul_fst, Prod.smul_snd, smul_eq_mul]
  ring

theorem rdot_smul_left (k : ℝ) (u v : Vec3R) :
    rdot (k • u) v = k * rdot u v := by
  unfold rdot
  simp only [Prod.smul_fst, Prod.smul_snd, smul_eq_mul]
  ring

theorem rdot_comm (u v : Vec3R) : rdot u v = rdot v u := by
  unfold rdot; ring

theorem rdot_normalize {v : Vec3R} (h : rnorm v ≠ 0) :
    rdot ((1 / rnorm v) • v) ((1 / rnorm v) • v) = 1 := by
  rw [rdot_smul_smul, ← rnorm_mul_self v]
  field_simp

theorem rcross_self_dot (a b : Vec3R) :
    rdot (rcross a b) (rcross a b) =
      rdot a a * rdot b b - (rdot a b) ^ 2 := by
  unfold rdot rcross
  dsimp only
  ring

theorem rcross_orth_left (a b : Vec3R) : rdot (rcross a b) a = 0 := by
  unfold rdot rcross
  dsimp only
  ring

theorem foldl_min_le {α : Type} [LinearOrder α] :
    ∀ (l : List α) (x : α), l.foldl min x ≤ x
  | [], x => le_refl x
  | y :: ys, x =>
    le_trans (foldl_min_le ys (min x y)) (min_le_left x y)

theorem le_foldl_max {α : Type} [LinearOrder α] :
    ∀ (l : List α) (x : α), x ≤ l.foldl max x
  | [], x => le_refl x
  | y :: ys, x =>
    le_trans (le_max_left x y) (le_foldl_max ys (max x y))

theorem camSizeRaw_nonneg {vs : List Vec3R} (hne : vs ≠ []) :
    0 ≤ camSizeRaw vs := by
  refine le_trans ?_ (le_max_left _ _)
  unfold camMax camMin raxisMax raxisMin
  dsimp only
  match vs, hne with
  | v :: tl, _ =>
    simp only [List.map_cons]
    exact sub_nonneg.mpr (le_trans (foldl_min_le _ _) (le_foldl_max _ _))

open scoped Classical in
/-- C10.  For every nonempty vertex list, `get_camera_transform`
places the camera at `center + (size * 2.5) * (0.8, 0.8, 0.6)` (with
`size` the largest bounding-box dimension, falling back to `1` when
zero), its `right` and `up` columns are unit length and mutually
orthogonal, and the third column is `-forward`, the negated unit
vector from the camera toward the box center; the degenerate
fallbacks (empty mesh, zero-length normalize) return the identity
transform, and the zero-length case is never reached here. -/
theorem camera_transform_spec (vs : List Vec3R) (hne : vs ≠ []) :
    (get_camera_transform vs).pos = camCenter vs +
      (((if camSizeRaw vs = 0 then 1 else camSizeRaw vs) * (5/2)) * (8/10),
       ((if camSizeRaw vs = 0 then 1 else camSizeRaw vs) * (5/2)) * (8/10),
       ((if camSizeRaw vs = 0 then 1 else camSizeRaw vs) * (5/2)) * (6/10)) ∧
    rdot (get_camera_transform vs).right (get_camera_transform vs).right
      = 1 ∧
    rdot (get_camera_transform vs).up (get_camera_transform vs).up = 1 ∧
    rdot (get_camera_transform vs).right (get_camera_transform vs).up
      = 0 ∧
    (get_camera_transform vs).back =
      -((1 / rnorm (camCenter vs - (get_camera_transform vs).pos)) •
        (camCenter vs - (get_camera_transform vs).pos)) := by
  have hs0 : 0 ≤ camSizeRaw vs := camSizeRaw_nonneg hne
  set s0 := camSizeRaw vs with hs0def
  set size : ℝ := if s0 = 0 then 1 else s0 with hsizedef
  have hsz : 0 < size := by
    rw [hsizedef]
    split_ifs with h
    · norm_num
    · exact lt_of_le_of_ne hs0 (Ne.symm h)
  set d : ℝ := size * (5/2) with hddef
  have hd : 0 < d := by rw [hddef]; positivity
  set p : Vec3R := (d * (8/10), d * (8/10), d * (6/10)) with hpdef
  have hf0eq : camCenter vs - (camCenter vs + p) = -p := sub_add_cancel_left _ _
  have hf1 : (-p).1 ≠ 0 := by
    rw [hpdef]
    simp only [Prod.fst_neg]
    intro hc
    nlinarith
  have hnf : rnorm (-p) ≠ 0 := ne_of_gt (rnorm_pos_of_fst hf1)
  set f : Vec3R := (1 / rnorm (-p)) • (-p) with hfdef
  have hfunit : rdot f f = 1 := rdot_normalize hnf
  set r0 : Vec3R := rcross f ((0:ℝ), (0:ℝ), (1:ℝ)) with hr0def
  have hr0fst : r0.1 ≠ 0 := by
    rw [hr0def, hfdef]
    show (1 / rnorm (-p)) • (-p) |>.2.1 * 1 - _ * 0 ≠ 0
    simp only [Prod.smul_snd, Prod.smul_fst, smul_eq_mul, Prod.snd_neg,
      Prod.fst_neg, hpdef, mul_one, mul_zero, sub_zero]
    have hn := rnorm_pos_of_fst hf1
    intro hc
    have h8 : d * (8/10) ≠ 0 := by positivity
    have : (1 / rnorm (-p)) ≠ 0 := by positivity
    rw [mul_eq_zero] at hc
    rcases hc with hc | hc
    · exact this hc
    · rw [neg_eq_zero] at hc
      exact h8 hc
  have hnr : rnorm r0 ≠ 0 := ne_of_gt (rnorm_pos_of_fst hr0fst)
  have hexpand : get_camera_transform vs =
      ⟨(1 / rnorm r0) • r0, rcross ((1 / rnorm r0) • r0) f, -f,
        camCenter vs + p⟩ := by
    unfold get_camera_transform
    rw [if_neg hne]
    dsimp only
    rw [← hs0def, ← hsizedef, ← hddef, ← hpdef, hf0eq,
      if_neg (show ¬ rnorm (-p) = 0 from hnf)]
    rw [← hfdef, ← hr0def, if_neg hnr]
  rw [hexpand]
  have hrf : rdot ((1 / rnorm r0) • r0) f = 0 := by
    rw [rdot_smul_left, hr0def, rcross_orth_left, mul_zero]
  refine ⟨rfl, rdot_normalize hnr, ?_, ?_, ?_⟩
  · show rdot (rcross ((1 / rnorm r0) • r0) f)
      (rcross ((1 / rnorm r0) • r0) f) = 1
    rw [rcross_self_dot, rdot_normalize hnr, hfunit, hrf]
    norm_num
  · show rdot ((1 / rnorm r0) • r0) (rcross ((1 / rnorm r0) • r0) f) = 0
    rw [rdot_comm]
    exact rcross_orth_left _ _
  · show -f = -((1 / rnorm (camCenter vs - (camCenter vs + p))) •
      (camCenter vs - (camCenter vs + p)))
    rw [hf0eq, hfdef]

/-- Witness for C10 at a single-vertex mesh (degenerate box, size
falls back to 1). -/
theorem camera_transform_spec_witness :
    rdot (get_camera_transform [((0:ℝ), (0:ℝ), (0:ℝ))]).right
      (get_camera_transform [((0:ℝ), (0:ℝ), (0:ℝ))]).right = 1 :=
  (camera_transform_spec [((0:ℝ), (0:ℝ), (0:ℝ))] (by simp)).2.1

/-! `clean_mesh` (claim C5). -/

/-- C5 counterexample: the valid one-face mesh whose single face is
degenerate (three collinear vertices).  It has at least one face, but
`clean_mesh` removes that face and returns the empty mesh, which is
not a single connected component (it has no faces, hence zero
components, and no component selection happens at all). -/
theorem clean_mesh_all_degenerate_cex :
    (([((0 : ℕ), (1 : ℕ), (2 : ℕ))] : List (ℕ × ℕ × ℕ)) ≠ []) ∧
    clean_mesh ⟨[((0:ℚ),(0:ℚ),(0:ℚ)), ((1:ℚ),(0:ℚ),(0:ℚ)),
        ((2:ℚ),(0:ℚ),(0:ℚ))], [(0, 1, 2)], none⟩ =
      some ⟨[], [], none⟩ ∧
    ¬ isSingleComponent ⟨[], [], none⟩ :=
  ⟨by decide, by decide, fun h => h.1 rfl⟩

/-! Machinery for reindexing vertex lists through
`(List.range n).filter`. -/

theorem filterRange_mem {n : ℕ} {pred : ℕ → Bool} {i : ℕ} :
    i ∈ (List.range n).filter pred ↔ i < n ∧ pred i = true := by
  rw [List.mem_filter, List.mem_range]

theorem filterRange_nodup (n : ℕ) (pred : ℕ → Bool) :
    ((List.range n).filter pred).Nodup :=
  List.Nodup.filter pred (List.nodup_range n)

theorem indexOf_lt_of_mem {kept : List ℕ} {i : ℕ} (h : i ∈ kept) :
    kept.indexOf i < kept.length := List.indexOf_lt_length.mpr h

theorem map_getD_indexOf {α : Type} {kept : List ℕ} {i : ℕ} (h : i ∈ kept)
    (g : ℕ → α) (d : α) :
    (kept.map g).getD (kept.indexOf i) d = g i := by
  rw [List.getD_eq_getElem _ _ (by simpa using indexOf_lt_of_mem h)]
  simp only [List.getElem_map]
  rw [List.getElem_indexOf (indexOf_lt_of_mem h)]

theorem indexOf_inj {kept : List ℕ} (hn : kept.Nodup) {i j : ℕ}
    (hi : i ∈ kept) (hj : j ∈ kept)
    (h : kept.indexOf i = kept.indexOf j) : i = j := by
  have h1 := List.getElem_indexOf (indexOf_lt_of_mem hi)
  have h2 := List.getElem_indexOf (indexOf_lt_of_mem hj)
  rw [← h1, ← h2]
  congr 1

theorem getD_mem_of_lt {α : Type} {l : List α} {k : ℕ} (h : k < l.length)
    (d : α) : l.getD k d ∈ l := by
  rw [List.getD_eq_getElem _ _ h]
  exact List.getElem_mem _

/-! Edge sharing survives vertex reindexing. -/

theorem ordPair_comm (a b : ℕ) : ordPair a b = ordPair b a := by
  unfold ordPair
  rw [Nat.min_comm, Nat.max_comm]

theorem ordPair_eq {a b c d : ℕ} (h : ordPair a b = ordPair c d) :
    (a = c ∧ b = d) ∨ (a = d ∧ b = c) := by
  unfold ordPair at h
  have h1 := congrArg Prod.fst h
  have h2 := congrArg Prod.snd h
  simp only at h1 h2
  omega

theorem mem_faceEdges_map {φ : ℕ → ℕ} {f : ℕ × ℕ × ℕ} {a b : ℕ}
    (h : ordPair a b ∈ faceEdges f) :
    ordPair (φ a) (φ b) ∈ faceEdges (mapFace φ f) := by
  unfold faceEdges at h
  unfold faceEdges mapFace
  simp only [List.mem_cons, List.not_mem_nil, or_false] at h ⊢
  rcases h with h | h | h <;>
    rcases ordPair_eq h with ⟨rfl, rfl⟩ | ⟨rfl, rfl⟩ <;>
    simp [ordPair_comm]

theorem faceEdges_shape {f : ℕ × ℕ × ℕ} {e : ℕ × ℕ}
    (he : e ∈ faceEdges f) :
    ∃ a b, e = ordPair a b ∧
      ∀ φ : ℕ → ℕ, ordPair (φ a) (φ b) ∈ faceEdges (mapFace φ f) := by
  unfold faceEdges at he
  simp only [List.mem_cons, List.not_mem_nil, or_false] at he
  rcases he with rfl | rfl | rfl
  · exact ⟨f.1, f.2.1, rfl, fun φ => by
      unfold faceEdges mapFace; simp⟩
  · exact ⟨f.2.1, f.2.2, rfl, fun φ => by
      unfold faceEdges mapFace; simp⟩
  · exact ⟨f.1, f.2.2, rfl, fun φ => by
      unfold faceEdges mapFace; simp⟩

theorem sharesEdge_map (φ : ℕ → ℕ) {f g : ℕ × ℕ × ℕ}
    (h : sharesEdge f g = true) :
    sharesEdge (mapFace φ f) (mapFace φ g) = true := by
  unfold sharesEdge at h ⊢
  rw [List.any_eq_true] at h ⊢
  obtain ⟨e, hef, heg⟩ := h
  rw [decide_eq_true_iff] at heg
  obtain ⟨a, b, rfl, hslot⟩ := faceEdges_shape hef
  exact ⟨ordPair (φ a) (φ b), hslot φ,
    by rw [decide_eq_true_iff]; exact mem_faceEdges_map heg⟩

theorem sharesEdge_symm {f g : ℕ × ℕ × ℕ} (h : sharesEdge f g = true) :
    sharesEdge g f = true := by
  unfold sharesEdge at h ⊢
  rw [List.any_eq_true] at h ⊢
  obtain ⟨e, hef, heg⟩ := h
  rw [decide_eq_true_iff] at heg
  exact ⟨e, heg, by rw [decide_eq_true_iff]; exact hef⟩

theorem facesAdjP_symm {faces : List (ℕ × ℕ × ℕ)} {k l : ℕ}
    (h : facesAdjP faces k l) : facesAdjP faces l k := by
  obtain ⟨hk, hl, hadj⟩ := h
  refine ⟨hl, hk, ?_⟩
  unfold facesAdj at hadj ⊢
  rw [Bool.and_eq_true] at hadj ⊢
  obtain ⟨hne, hsh⟩ := hadj
  rw [bne_iff_ne] at hne
  exact ⟨by rw [bne_iff_ne]; exact hne.symm, sharesEdge_symm hsh⟩

theorem facesConnected_symm {faces : List (ℕ × ℕ × ℕ)} {k l : ℕ}
    (h : facesConnected faces k l) : facesConnected faces l k :=
  Relation.ReflTransGen.symmetric (fun _ _ hab => facesAdjP_symm hab) h

theorem facesAdjP_map {faces : List (ℕ × ℕ × ℕ)} {φ : ℕ → ℕ} {k l : ℕ}
    (h : facesAdjP faces k l) :
    facesAdjP (faces.map (mapFace φ)) k l := by
  obtain ⟨hk, hl, hadj⟩ := h
  refine ⟨by simpa using hk, by simpa using hl, ?_⟩
  unfold facesAdj at hadj ⊢
  rw [Bool.and_eq_true] at hadj ⊢
  obtain ⟨hne, hsh⟩ := hadj
  refine ⟨hne, ?_⟩
  rw [List.getD_eq_getElem _ _ (by simpa using hk),
    List.getD_eq_getElem _ _ (by simpa using hl), List.getElem_map,
    List.getElem_map]
  rw [List.getD_eq_getElem _ _ hk, List.getD_eq_getElem _ _ hl] at hsh
  exact sharesEdge_map φ hsh

theorem facesConnected_map {faces : List (ℕ × ℕ × ℕ)} {φ : ℕ → ℕ}
    {k l : ℕ} (h : facesConnected faces k l) :
    facesConnected (faces.map (mapFace φ)) k l := by
  induction h with
  | refl => exact Relation.ReflTransGen.refl
  | tail _ hbc ih => exact ih.tail (facesAdjP_map hbc)

/-! Correctness of the saturation-based component search. -/

theorem compStep_subset (faces : List (ℕ × ℕ × ℕ)) (s : Finset ℕ) :
    s ⊆ compStep faces s :=
  Finset.subset_union_left

theorem compStep_dom {faces : List (ℕ × ℕ × ℕ)} {s : Finset ℕ}
    (h : s ⊆ Finset.range faces.length) :
    compStep faces s ⊆ Finset.range faces.length :=
  Finset.union_subset h (Finset.filter_subset _ _)

theorem compSat_subset (faces : List (ℕ × ℕ × ℕ)) :
    ∀ (fuel : ℕ) (s : Finset ℕ), s ⊆ compSat faces fuel s
  | 0, _ => subset_rfl
  | fuel + 1, s => by
    unfold compSat
    split_ifs with h
    · exact subset_rfl
    · exact subset_trans (compStep_subset faces s)
        (compSat_subset faces fuel _)

theorem compSat_dom (faces : List (ℕ × ℕ × ℕ)) :
    ∀ (fuel : ℕ) (s : Finset ℕ), s ⊆ Finset.range faces.length →
      compSat faces fuel s ⊆ Finset.range faces.length
  | 0, _, h => h
  | fuel + 1, s, h => by
    unfold compSat
    split_ifs with hfix
    · exact h
    · exact compSat_dom faces fuel _ (compStep_dom h)

theorem compSat_fixed (faces : List (ℕ × ℕ × ℕ)) :
    ∀ (fuel : ℕ) (s : Finset ℕ), s ⊆ Finset.range faces.length →
      faces.length ≤ fuel + s.card →
      compStep faces (compSat faces fuel s) = compSat faces fuel s
  | 0, s, hdom, hcard => by
    unfold compSat
    have hs : s = Finset.range faces.length :=
      Finset.eq_of_subset_of_card_le hdom (by simpa using hcard)
    rw [hs]
    exact subset_antisymm (compStep_dom subset_rfl)
      (compStep_subset faces _)
  | fuel + 1, s, hdom, hcard => by
    unfold compSat
    split_ifs with hfix
    · exact hfix
    · refine compSat_fixed faces fuel (compStep faces s)
        (compStep_dom hdom) ?_
      have hss : s ⊂ compStep faces s :=
        (Finset.ssubset_iff_subset_ne).mpr
          ⟨compStep_subset faces s, fun hc => hfix hc.symm⟩
      have := Finset.card_lt_card hss
      omega

theorem compSat_sound (faces : List (ℕ × ℕ × ℕ)) :
    ∀ (fuel : ℕ) (s : Finset ℕ), (∀ y ∈ s, y < faces.length) →
      ∀ x ∈ compSat faces fuel s, ∃ k0 ∈ s, facesConnected faces k0 x
  | 0, s, _, x, hx => ⟨x, hx, Relation.ReflTransGen.refl⟩
  | fuel + 1, s, hs, x, hx => by
    unfold compSat at hx
    split_ifs at hx with hfix
    · exact ⟨x, hx, Relation.ReflTransGen.refl⟩
    · have hstep : ∀ y ∈ compStep faces s, y < faces.length := by
        intro y hy
        unfold compStep at hy
        rw [Finset.mem_union] at hy
        rcases hy with hy | hy
        · exact hs y hy
        · exact Finset.mem_range.mp (Finset.mem_filter.mp hy).1
      obtain ⟨k0, hk0, hconn⟩ := compSat_sound faces fuel _ hstep x hx
      unfold compStep at hk0
      rw [Finset.mem_union] at hk0
      rcases hk0 with hk0 | hk0
      · exact ⟨k0, hk0, hconn⟩
      · rw [Finset.mem_filter] at hk0
        obtain ⟨hk0r, k1, hk1, hadj⟩ := hk0
        exact ⟨k1, hk1, Relation.ReflTransGen.head
          ⟨hs k1 hk1, Finset.mem_range.mp hk0r, hadj⟩ hconn⟩

theorem compReach_mem (faces : List (ℕ × ℕ × ℕ)) (k : ℕ) :
    k ∈ compReach faces k :=
  compSat_subset faces faces.length {k} (Finset.mem_singleton_self k)

theorem compReach_dom {faces : List (ℕ × ℕ × ℕ)} {k : ℕ}
    (hk : k < faces.length) :
    compReach faces k ⊆ Finset.range faces.length :=
  compSat_dom faces faces.length {k}
    (by simpa using Finset.mem_range.mpr hk)

theorem compReach_closed {faces : List (ℕ × ℕ × ℕ)} {k : ℕ}
    (hk : k < faces.length) :
    ∀ x ∈ compReach faces k, ∀ l, facesAdj faces x l = true →
      l < faces.length → l ∈ compReach faces k := by
  intro x hx l hadj hl
  have hfix := compSat_fixed faces faces.length {k}
    (by simpa using Finset.mem_range.mpr hk)
    (by simp)
  show l ∈ compReach faces k
  unfold compReach
  rw [show compSat faces faces.length {k} =
    compStep faces (compSat faces faces.length {k}) from hfix.symm]
  unfold compStep
  exact Finset.mem_union_right _ (Finset.mem_filter.mpr
    ⟨Finset.mem_range.mpr hl, x, hx, hadj⟩)

theorem compReach_sound {faces : List (ℕ × ℕ × ℕ)} {k : ℕ}
    (hk : k < faces.length) :
    ∀ x ∈ compReach faces k, facesConnected faces k x := by
  intro x hx
  obtain ⟨k0, hk0, hconn⟩ := compSat_sound faces faces.length {k}
    (by simpa using hk) x hx
  rw [Finset.mem_singleton] at hk0
  rwa [hk0] at hconn

theorem compReach_conn {faces : List (ℕ × ℕ × ℕ)} {k : ℕ}
    (hk : k < faces.length) :
    ∀ x ∈ compReach faces k, ∀ y ∈ compReach faces k,
      facesConnected faces x y :=
  fun x hx y hy => Relation.ReflTransGen.trans
    (facesConnected_symm (compReach_sound hk x hx))
    (compReach_sound hk y hy)

/-- A connectivity chain that starts in a closed set stays in it, and
can be restricted to it. -/
theorem conn_within {faces : List (ℕ × ℕ × ℕ)} {C : Finset ℕ}
    (hclosed : ∀ x ∈ C, ∀ l, facesAdj faces x l = true →
      l < faces.length → l ∈ C)
    {a b : ℕ} (h : facesConnected faces a b) (ha : a ∈ C) :
    b ∈ C ∧ Relation.ReflTransGen
      (fun x y => facesAdjP faces x y ∧ x ∈ C ∧ y ∈ C) a b := by
  induction h with
  | refl => exact ⟨ha, Relation.ReflTransGen.refl⟩
  | tail _ hbc ih =>
    obtain ⟨hbC, hchain⟩ := ih
    have hcC := hclosed _ hbC _ hbc.2.2 hbc.2.1
    exact ⟨hcC, hchain.tail ⟨hbc, hbC, hcC⟩⟩

/-! `componentsList` and `pickLargest`. -/

theorem componentsList_mem {faces : List (ℕ × ℕ × ℕ)} {c : Finset ℕ}
    (h : c ∈ componentsList faces) :
    ∃ k, k < faces.length ∧ c = compReach faces k := by
  suffices H : ∀ (l : List ℕ) (acc : List (Finset ℕ)),
      (∀ x ∈ l, x < faces.length) →
      (∀ c' ∈ acc, ∃ k, k < faces.length ∧ c' = compReach faces k) →
      ∀ c' ∈ l.foldl (fun acc k => if acc.any fun c => k ∈ c then acc
        else acc ++ [compReach faces k]) acc,
        ∃ k, k < faces.length ∧ c' = compReach faces k by
    exact H (List.range faces.length) []
      (fun x hx => List.mem_range.mp hx) (by simp) c h
  intro l
  induction l with
  | nil => exact fun acc _ hacc c' hc' => hacc c' hc'
  | cons x xs ih =>
    intro acc hl hacc c' hc'
    simp only [List.foldl_cons] at hc'
    refine ih _ (fun y hy => hl y (List.mem_cons_of_mem _ hy)) ?_ c' hc'
    intro c2 hc2
    split_ifs at hc2 with hsplit
    · exact hacc c2 hc2
    · rw [List.mem_append, List.mem_singleton] at hc2
      rcases hc2 with h2 | rfl
      · exact hacc c2 h2
      · exact ⟨x, hl x (List.mem_cons_self _ _), rfl⟩

theorem componentsList_cover {faces : List (ℕ × ℕ × ℕ)} {k : ℕ}
    (hk : k < faces.length) :
    ∃ c ∈ componentsList faces, k ∈ c := by
  suffices H : ∀ (l : List ℕ) (acc : List (Finset ℕ)),
      (k ∈ l ∨ ∃ c ∈ acc, k ∈ c) →
      ∃ c ∈ l.foldl (fun acc k => if acc.any fun c => k ∈ c then acc
        else acc ++ [compReach faces k]) acc, k ∈ c by
    exact H (List.range faces.length) [] (Or.inl (List.mem_range.mpr hk))
  intro l
  induction l with
  | nil =>
    rintro acc (h | h)
    · exact absurd h (List.not_mem_nil k)
    · exact h
  | cons x xs ih =>
    rintro acc (hx | hcov)
    · rcases List.mem_cons.mp hx with rfl | hxs
      · simp only [List.foldl_cons]
        by_cases hany : (acc.any fun c => k ∈ c) = true
        · refine ih _ (Or.inr ?_)
          rw [if_pos hany]
          rw [List.any_eq_true] at hany
          obtain ⟨c, hc, hkc⟩ := hany
          rw [decide_eq_true_iff] at hkc
          exact ⟨c, hc, hkc⟩
        · refine ih _ (Or.inr ?_)
          rw [if_neg hany]
          exact ⟨compReach faces k,
            List.mem_append_right _ (List.mem_singleton_self _),
            compReach_mem faces k⟩
      · exact ih _ (Or.inl hxs)
    · simp only [List.foldl_cons]
      refine ih _ (Or.inr ?_)
      obtain ⟨c, hc, hkc⟩ := hcov
      split_ifs
      · exact ⟨c, hc, hkc⟩
      · exact ⟨c, List.mem_append_left _ hc, hkc⟩

theorem pickLargest_foldl (faces : List (ℕ × ℕ × ℕ)) :
    ∀ (l : List (Finset ℕ)) (b : Finset ℕ),
      ∃ c, (l.foldl (fun best c =>
        match best with
        | none => some c
        | some b => if compVertexCount faces c > compVertexCount faces b
          then some c else some b) (some b)) = some c ∧ (c = b ∨ c ∈ l)
  | [], b => ⟨b, rfl, Or.inl rfl⟩
  | x :: xs, b => by
    simp only [List.foldl_cons]
    by_cases h : compVertexCount faces x > compVertexCount faces b
    · rw [if_pos h]
      obtain ⟨c, hc, hor⟩ := pickLargest_foldl faces xs x
      refine ⟨c, hc, Or.inr ?_⟩
      rcases hor with rfl | h2
      · exact List.mem_cons_self _ _
      · exact List.mem_cons_of_mem _ h2
    · rw [if_neg h]
      obtain ⟨c, hc, hor⟩ := pickLargest_foldl faces xs b
      refine ⟨c, hc, ?_⟩
      rcases hor with rfl | h2
      · exact Or.inl rfl
      · exact Or.inr (List.mem_cons_of_mem _ h2)

theorem pickLargest_some (faces : List (ℕ × ℕ × ℕ))
    {comps : List (Finset ℕ)} (h : comps ≠ []) :
    ∃ c ∈ comps, pickLargest faces comps = some c := by
  match comps, h with
  | x :: xs, _ =>
    obtain ⟨c, hc, hor⟩ := pickLargest_foldl faces xs x
    refine ⟨c, ?_, hc⟩
    rcases hor with rfl | h2
    · exact List.mem_cons_self _ _
    · exact List.mem_cons_of_mem _ h2

/-- `pickLargest` implements Python's `max(comps, key=vertex count)`:
the result is a member attaining the maximal vertex count, and it is
the first member attaining it (every earlier member is strictly
smaller). -/
theorem pickLargest_char (faces : List (ℕ × ℕ × ℕ)) :
    ∀ (comps : List (Finset ℕ)) (C : Finset ℕ),
      pickLargest faces comps = some C →
      C ∈ comps ∧
      (∀ c ∈ comps, compVertexCount faces c ≤ compVertexCount faces C) ∧
      ∃ l1 l2, comps = l1 ++ C :: l2 ∧
        ∀ c ∈ l1, compVertexCount faces c < compVertexCount faces C := by
  suffices H : ∀ (l : List (Finset ℕ)) (b : Finset ℕ) (C : Finset ℕ),
      (l.foldl (fun best c =>
        match best with
        | none => some c
        | some b => if compVertexCount faces c > compVertexCount faces b
          then some c else some b) (some b)) = some C →
      (C = b ∧ ∀ c ∈ l, compVertexCount faces c ≤ compVertexCount faces C)
      ∨ (C ∈ l ∧
        (∀ c ∈ l, compVertexCount faces c ≤ compVertexCount faces C) ∧
        compVertexCount faces b < compVertexCount faces C ∧
        ∃ l1 l2, l = l1 ++ C :: l2 ∧
          ∀ c ∈ l1, compVertexCount faces c < compVertexCount faces C) by
    intro comps C hC
    match comps, hC with
    | x :: xs, hC =>
      unfold pickLargest at hC
      simp only [List.foldl_cons] at hC
      rcases H xs x C hC with ⟨rfl, hle⟩ | ⟨hmem, hle, hlt, l1, l2, rfl, hl1⟩
      · refine ⟨List.mem_cons_self _ _, ?_, [], xs, rfl, by simp⟩
        intro c hc
        rcases List.mem_cons.mp hc with rfl | hc2
        · exact le_refl _
        · exact hle c hc2
      · refine ⟨List.mem_cons_of_mem _ hmem, ?_, x :: l1, l2, rfl, ?_⟩
        · intro c hc
          rcases List.mem_cons.mp hc with rfl | hc2
          · exact le_of_lt hlt
          · exact hle c hc2
        · intro c hc
          rcases List.mem_cons.mp hc with rfl | hc2
          · exact hlt
          · exact hl1 c hc2
  intro l
  induction l with
  | nil =>
    intro b C hC
    simp only [List.foldl_nil, Option.some_inj] at hC
    exact Or.inl ⟨hC.symm, by simp⟩
  | cons x xs ih =>
    intro b C hC
    simp only [List.foldl_cons] at hC
    by_cases h : compVertexCount faces x > compVertexCount faces b
    · rw [if_pos h] at hC
      rcases ih x C hC with ⟨rfl, hle⟩ | ⟨hmem, hle, hlt, l1, l2, heq, hl1⟩
      · refine Or.inr ⟨List.mem_cons_self _ _, ?_, h, [], xs, rfl, by simp⟩
        intro c hc
        rcases List.mem_cons.mp hc with rfl | hc2
        · exact le_refl _
        · exact hle c hc2
      · refine Or.inr ⟨List.mem_cons_of_mem _ hmem, ?_,
          lt_trans h hlt, x :: l1, l2, by rw [heq, List.cons_append], ?_⟩
        · intro c hc
          rcases List.mem_cons.mp hc with rfl | hc2
          · exact le_of_lt hlt
          · exact hle c hc2
        · intro c hc
          rcases List.mem_cons.mp hc with rfl | hc2
          · exact hlt
          · exact hl1 c hc2
    · rw [if_neg h] at hC
      rcases ih b C hC with ⟨rfl, hle⟩ | ⟨hmem, hle, hlt, l1, l2, heq, hl1⟩
      · refine Or.inl ⟨rfl, ?_⟩
        intro c hc
        rcases List.mem_cons.mp hc with rfl | hc2
        · exact le_of_not_lt h
        · exact hle c hc2
      · refine Or.inr ⟨List.mem_cons_of_mem _ hmem, ?_, hlt,
          x :: l1, l2, by rw [heq, List.cons_append], ?_⟩
        · intro c hc
          rcases List.mem_cons.mp hc with rfl | hc2
          · exact le_of_lt (lt_of_le_of_lt (le_of_not_lt h) hlt)
          · exact hle c hc2
        · intro c hc
          rcases List.mem_cons.mp hc with rfl | hc2
          · exact lt_of_le_of_lt (le_of_not_lt h) hlt
          · exact hl1 c hc2

/-! Stage lemmas for `clean_mesh`. -/

theorem faceHas_map {φ : ℕ → ℕ} {f : ℕ × ℕ × ℕ} {i : ℕ}
    (h : faceHas f i = true) : faceHas (mapFace φ f) (φ i) = true := by
  unfold faceHas at h
  unfold faceHas mapFace
  simp only [Bool.or_eq_true, beq_iff_eq] at h ⊢
  rcases h with (h | h) | h
  · exact Or.inl (Or.inl (congrArg φ h))
  · exact Or.inl (Or.inr (congrArg φ h))
  · exact Or.inr (congrArg φ h)

theorem faceDegenerate_map {vsA vsB : List Vec3} {φ : ℕ → ℕ}
    {f : ℕ × ℕ × ℕ}
    (h1 : vsB.getD (φ f.1) vzero = vsA.getD f.1 vzero)
    (h2 : vsB.getD (φ f.2.1) vzero = vsA.getD f.2.1 vzero)
    (h3 : vsB.getD (φ f.2.2) vzero = vsA.getD f.2.2 vzero) :
    faceDegenerate vsB (mapFace φ f) = faceDegenerate vsA f := by
  unfold faceDegenerate mapFace
  dsimp only
  rw [h1, h2, h3]

theorem referenced_mem {m : Mesh} {i : ℕ} :
    i ∈ referencedIdx m ↔ i < m.vertices.length ∧
      ∃ f ∈ m.faces, faceHas f i = true := by
  unfold referencedIdx
  rw [filterRange_mem, List.any_eq_true]

theorem faceHas_fst (f : ℕ × ℕ × ℕ) : faceHas f f.1 = true := by
  unfold faceHas; simp

theorem faceHas_snd (f : ℕ × ℕ × ℕ) : faceHas f f.2.1 = true := by
  unfold faceHas; simp

theorem faceHas_thd (f : ℕ × ℕ × ℕ) : faceHas f f.2.2 = true := by
  unfold faceHas; simp

theorem face_idx_referenced {m : Mesh} (hvalid : meshValid m)
    {f : ℕ × ℕ × ℕ} (hf : f ∈ m.faces) :
    f.1 ∈ referencedIdx m ∧ f.2.1 ∈ referencedIdx m ∧
      f.2.2 ∈ referencedIdx m := by
  obtain ⟨h1, h2, h3⟩ := hvalid f hf
  exact ⟨referenced_mem.mpr ⟨h1, f, hf, faceHas_fst f⟩,
    referenced_mem.mpr ⟨h2, f, hf, faceHas_snd f⟩,
    referenced_mem.mpr ⟨h3, f, hf, faceHas_thd f⟩⟩

theorem removeDegen_mem {m : Mesh} {f : ℕ × ℕ × ℕ} :
    f ∈ (removeDegenerateFaces m).faces ↔
      f ∈ m.faces ∧ faceDegenerate m.vertices f = false := by
  show f ∈ m.faces.filter _ ↔ _
  rw [List.mem_filter, Bool.not_eq_true']

/-- All invariants transported through
`remove_unreferenced_vertices`. -/
theorem remove_unref_full (m : Mesh) (hvalid : meshValid m) :
    meshValid (remove_unreferenced_vertices m) ∧
    noUnreferencedVertices (remove_unreferenced_vertices m) ∧
    (noDegenerateFaces m →
      noDegenerateFaces (remove_unreferenced_vertices m)) ∧
    (remove_unreferenced_vertices m).faces.length = m.faces.length ∧
    ((remove_unreferenced_vertices m).faces = [] ↔ m.faces = []) ∧
    (∀ k l, facesConnected m.faces k l →
      facesConnected (remove_unreferenced_vertices m).faces k l) := by
  set kept := referencedIdx m with hkept
  have hfaces : (remove_unreferenced_vertices m).faces =
      m.faces.map (mapFace fun i => kept.indexOf i) := rfl
  have hverts : (remove_unreferenced_vertices m).vertices =
      kept.map (fun i => m.vertices.getD i vzero) := rfl
  have hvlen : (remove_unreferenced_vertices m).vertices.length =
      kept.length := by rw [hverts, List.length_map]
  have hnodup : kept.Nodup := filterRange_nodup _ _
  refine ⟨?_, ?_, ?_, ?_, ?_, ?_⟩
  · intro g hg
    rw [hfaces, List.mem_map] at hg
    obtain ⟨f, hf, rfl⟩ := hg
    obtain ⟨hm1, hm2, hm3⟩ := face_idx_referenced hvalid hf
    rw [hvlen]
    exact ⟨indexOf_lt_of_mem hm1, indexOf_lt_of_mem hm2,
      indexOf_lt_of_mem hm3⟩
  · intro j hj
    rw [hvlen] at hj
    have hmem : kept[j] ∈ kept := List.getElem_mem hj
    obtain ⟨_, f, hf, hhas⟩ := referenced_mem.mp
      (show kept[j] ∈ referencedIdx m from hmem)
    refine ⟨mapFace (fun i => kept.indexOf i) f,
      by rw [hfaces]; exact List.mem_map_of_mem _ hf, ?_⟩
    have h2 : faceHas (mapFace (fun i => kept.indexOf i) f)
        (kept.indexOf kept[j]) = true := faceHas_map hhas
    rwa [List.indexOf_getElem hnodup j hj] at h2
  · intro hnodeg g hg
    rw [hfaces, List.mem_map] at hg
    obtain ⟨f, hf, rfl⟩ := hg
    obtain ⟨hm1, hm2, hm3⟩ := face_idx_referenced hvalid hf
    rw [hverts]
    rw [faceDegenerate_map (map_getD_indexOf hm1 _ _)
      (map_getD_indexOf hm2 _ _) (map_getD_indexOf hm3 _ _)]
    exact hnodeg f hf
  · rw [hfaces, List.length_map]
  · rw [hfaces, List.map_eq_nil_iff]
  · intro k l h
    rw [hfaces]
    exact facesConnected_map h

/-- Invariants of the submesh holding exactly the faces of the
component reached from face `k0`. -/
theorem keptFaces_props (m : Mesh) (hvalid : meshValid m)
    (hnodeg : noDegenerateFaces m) {k0 : ℕ} (hk0 : k0 < m.faces.length) :
    meshValid (componentSubmesh m (compReach m.faces k0)) ∧
    noDegenerateFaces (componentSubmesh m (compReach m.faces k0)) ∧
    (componentSubmesh m (compReach m.faces k0)).faces ≠ [] ∧
    (∀ o1 o2,
      o1 < (componentSubmesh m (compReach m.faces k0)).faces.length →
      o2 < (componentSubmesh m (compReach m.faces k0)).faces.length →
      facesConnected (componentSubmesh m (compReach m.faces k0)).faces
        o1 o2) := by
  set C := compReach m.faces k0 with hC
  set keptIdx := (List.range m.faces.length).filter
    (fun k => decide (k ∈ C)) with hki
  have hkf : (componentSubmesh m C).faces =
      keptIdx.map (fun k => m.faces.getD k (0, 0, 0)) := rfl
  have hkv : (componentSubmesh m C).vertices = m.vertices := rfl
  have hmemK : ∀ {k : ℕ}, k ∈ keptIdx ↔ k < m.faces.length ∧ k ∈ C := by
    intro k
    rw [hki, filterRange_mem, decide_eq_true_iff]
  have hmemF : ∀ g ∈ (componentSubmesh m C).faces, g ∈ m.faces := by
    intro g hg
    rw [hkf, List.mem_map] at hg
    obtain ⟨k, hk, rfl⟩ := hg
    exact getD_mem_of_lt (hmemK.mp hk).1 _
  have hnodupK : keptIdx.Nodup := filterRange_nodup _ _
  have hlenkf : (componentSubmesh m C).faces.length = keptIdx.length := by
    rw [hkf, List.length_map]
  refine ⟨?_, ?_, ?_, ?_⟩
  · intro g hg
    rw [hkv]
    exact hvalid g (hmemF g hg)
  · intro g hg
    rw [hkv]
    exact hnodeg g (hmemF g hg)
  · have hk0K : k0 ∈ keptIdx := hmemK.mpr ⟨hk0, compReach_mem _ _⟩
    rw [hkf]
    intro hnil
    rw [List.map_eq_nil_iff] at hnil
    rw [hnil] at hk0K
    exact List.not_mem_nil k0 hk0K
  · intro o1 o2 ho1 ho2
    rw [hlenkf] at ho1 ho2
    have hm1 : keptIdx[o1] ∈ keptIdx := List.getElem_mem ho1
    have hm2 : keptIdx[o2] ∈ keptIdx := List.getElem_mem ho2
    obtain ⟨hk1lt, hk1C⟩ := hmemK.mp hm1
    obtain ⟨hk2lt, hk2C⟩ := hmemK.mp hm2
    have hconn0 : facesConnected m.faces keptIdx[o1] keptIdx[o2] :=
      compReach_conn hk0 _ hk1C _ hk2C
    have hclosedC : ∀ x ∈ C, ∀ l, facesAdj m.faces x l = true →
        l < m.faces.length → l ∈ C := compReach_closed hk0
    obtain ⟨_, hchain⟩ := conn_within hclosedC hconn0 hk1C
    have hstep : ∀ a b : ℕ,
        (facesAdjP m.faces a b ∧ a ∈ C ∧ b ∈ C) →
        facesAdjP (componentSubmesh m C).faces
          (keptIdx.indexOf a) (keptIdx.indexOf b) := by
      rintro a b ⟨⟨ha, hb, hadj⟩, haC, hbC⟩
      have haK : a ∈ keptIdx := hmemK.mpr ⟨ha, haC⟩
      have hbK : b ∈ keptIdx := hmemK.mpr ⟨hb, hbC⟩
      refine ⟨by rw [hlenkf]; exact indexOf_lt_of_mem haK,
        by rw [hlenkf]; exact indexOf_lt_of_mem hbK, ?_⟩
      unfold facesAdj at hadj ⊢
      rw [Bool.and_eq_true] at hadj ⊢
      obtain ⟨hne, hsh⟩ := hadj
      rw [bne_iff_ne] at hne
      constructor
      · rw [bne_iff_ne]
        intro hc
        exact hne (indexOf_inj hnodupK haK hbK hc)
      · rw [hkf, map_getD_indexOf haK _ _, map_getD_indexOf hbK _ _]
        exact hsh
    have hmapped : Relation.ReflTransGen
        (facesAdjP (componentSubmesh m C).faces)
        (keptIdx.indexOf keptIdx[o1]) (keptIdx.indexOf keptIdx[o2]) :=
      Relation.ReflTransGen.lift (fun k => keptIdx.indexOf k) hstep hchain
    rw [List.indexOf_getElem hnodupK o1 ho1,
      List.indexOf_getElem hnodupK o2 ho2] at hmapped
    exact hmapped

/-- All invariants of `selectComponent`'s output; in particular the
output is a single connected component. -/
theorem selectComponent_full (m : Mesh) (hvalid : meshValid m)
    (hnodeg : noDegenerateFaces m)
    (hnounref : noUnreferencedVertices m) (hne : m.faces ≠ []) :
    meshValid (selectComponent m) ∧
    noDegenerateFaces (selectComponent m) ∧
    noUnreferencedVertices (selectComponent m) ∧
    isSingleComponent (selectComponent m) := by
  unfold selectComponent
  dsimp only
  have hpos : 0 < m.faces.length := List.length_pos.mpr hne
  by_cases hlen : 1 < (componentsList m.faces).length
  · rw [if_pos hlen]
    have hcomps_ne : componentsList m.faces ≠ [] := by
      intro hnil
      rw [hnil] at hlen
      simp at hlen
    obtain ⟨C, hCmem, hCpick⟩ := pickLargest_some m.faces hcomps_ne
    rw [hCpick]
    obtain ⟨k0, hk0, hCreach⟩ := componentsList_mem hCmem
    subst hCreach
    obtain ⟨hv1, hd1, hne1, hc1⟩ := keptFaces_props m hvalid hnodeg hk0
    obtain ⟨hv2, hu2, hd2, hl2, hn2, hcn2⟩ :=
      remove_unref_full (componentSubmesh m (compReach m.faces k0)) hv1
    refine ⟨hv2, hd2 hd1, hu2, ?_, ?_⟩
    · intro hnil
      exact hne1 (hn2.mp hnil)
    · intro k l hk hl
      rw [hl2] at hk hl
      exact hcn2 k l (hc1 k l hk hl)
  · rw [if_neg hlen]
    obtain ⟨c0, hc0, h0c0⟩ := componentsList_cover hpos
    have hcomps_ne : componentsList m.faces ≠ [] := by
      intro hnil
      rw [hnil] at hc0
      exact List.not_mem_nil c0 hc0
    have hlen1 : (componentsList m.faces).length = 1 := by
      have := List.length_pos.mpr hcomps_ne
      omega
    obtain ⟨c, hc⟩ := List.length_eq_one.mp hlen1
    obtain ⟨k0, hk0, hck0⟩ := componentsList_mem
      (show c ∈ componentsList m.faces by
        rw [hc]; exact List.mem_singleton_self c)
    subst hck0
    refine ⟨hvalid, hnodeg, hnounref, hne, ?_⟩
    intro k l hk hl
    have hkc : k ∈ compReach m.faces k0 := by
      obtain ⟨ck, hckm, hkck⟩ := componentsList_cover hk
      rw [hc, List.mem_singleton] at hckm
      rwa [hckm] at hkck
    have hlc : l ∈ compReach m.faces k0 := by
      obtain ⟨cl, hclm, hlcl⟩ := componentsList_cover hl
      rw [hc, List.mem_singleton] at hclm
      rwa [hclm] at hlcl
    exact compReach_conn hk0 k hkc l hlc

/-! The merge stage. -/

theorem find?_first {α : Type} {p : α → Bool} :
    ∀ {l : List α} {a : α}, l.find? p = some a →
      ∃ l1 l2, l = l1 ++ a :: l2 ∧ (∀ x ∈ l1, p x = false) ∧ p a = true := by
  intro l
  induction l with
  | nil => intro a h; simp [List.find?] at h
  | cons x xs ih =>
    intro a h
    by_cases hx : p x = true
    · rw [List.find?_cons_of_pos _ hx, Option.some_inj] at h
      subst h
      exact ⟨[], xs, rfl, by simp, hx⟩
    · rw [List.find?_cons_of_neg _ (by simpa using hx)] at h
      obtain ⟨l1, l2, rfl, hl1, hpa⟩ := ih h
      refine ⟨x :: l1, l2, rfl, ?_, hpa⟩
      intro y hy
      rcases List.mem_cons.mp hy with rfl | hy2
      · simpa using hx
      · exact hl1 y hy2

theorem range_split {n : ℕ} {l1 l2 : List ℕ} {a : ℕ}
    (h : List.range n = l1 ++ a :: l2) :
    a = l1.length ∧ n = l1.length + 1 + l2.length ∧ ∀ j < a, j ∈ l1 := by
  have hlen : n = l1.length + 1 + l2.length := by
    have := congrArg List.length h
    simp at this
    omega
  have hl1n : l1.length < n := by omega
  have ha : a = l1.length := by
    have h1 : (List.range n)[l1.length]? = some l1.length :=
      List.getElem?_range hl1n
    rw [h, List.getElem?_append_right (le_refl l1.length)] at h1
    simp only [Nat.sub_self, List.getElem?_cons_zero, Option.some_inj] at h1
    exact h1
  subst ha
  refine ⟨rfl, hlen, ?_⟩
  intro j hj
  have h1 : (List.range n)[j]? = some j :=
    List.getElem?_range (lt_trans hj hl1n)
  rw [h, List.getElem?_append_left hj] at h1
  exact List.getElem?_mem h1

theorem mergeRepOf_spec (m : Mesh) {i : ℕ} (hi : i < m.vertices.length) :
    mergeRepOf m i < m.vertices.length ∧ mergeRepOf m i ≤ i ∧
    mergePos m (mergeRepOf m i) = mergePos m i ∧
    ∀ j < mergeRepOf m i, mergePos m j ≠ mergePos m i := by
  unfold mergeRepOf
  cases hfind : (List.range m.vertices.length).find?
      (fun j => decide (mergePos m j = mergePos m i)) with
  | none =>
    exfalso
    have := List.find?_eq_none.mp hfind i (List.mem_range.mpr hi)
    simp at this
  | some j0 =>
    obtain ⟨l1, l2, hsplit, hl1, hpj⟩ := find?_first hfind
    obtain ⟨ha, hlen, hmem⟩ := range_split hsplit
    rw [decide_eq_true_iff] at hpj
    have hj0n : j0 < m.vertices.length := by omega
    have hleast : ∀ j < j0, mergePos m j ≠ mergePos m i := by
      intro j hj hcon
      have hjl1 : j ∈ l1 := hmem j hj
      have := hl1 j hjl1
      rw [decide_eq_false_iff_not] at this
      exact this hcon
    have hle : j0 ≤ i := by
      by_contra hgt
      exact hleast i (by omega) rfl
    simp only [Option.getD_some]
    exact ⟨hj0n, hle, hpj, hleast⟩

theorem mergeRepOf_mem (m : Mesh) {i : ℕ} (hi : i < m.vertices.length) :
    mergeRepOf m i ∈ mergeReps m := by
  obtain ⟨hn, _, heq, hleast⟩ := mergeRepOf_spec m hi
  unfold mergeReps
  rw [filterRange_mem]
  refine ⟨hn, ?_⟩
  rw [List.all_eq_true]
  intro j hj
  rw [List.mem_range] at hj
  simp only [Bool.not_eq_true', decide_eq_false_iff_not]
  intro hcon
  exact hleast j hj (hcon.trans heq)

theorem mergeRep_fix (m : Mesh) {i : ℕ} (hi : i ∈ mergeReps m) :
    mergeRepOf m i = i := by
  have hin : i < m.vertices.length := (filterRange_mem.mp hi).1
  obtain ⟨hn, hle, heq, hleast⟩ := mergeRepOf_spec m hin
  by_contra hne
  have hlt : mergeRepOf m i < i := lt_of_le_of_ne hle hne
  have hpred := (filterRange_mem.mp hi).2
  rw [List.all_eq_true] at hpred
  have := hpred (mergeRepOf m i) (List.mem_range.mpr hlt)
  simp only [Bool.not_eq_true', decide_eq_false_iff_not] at this
  exact this heq

/-- All invariants transported through `merge_vertices`. -/
theorem merge_full (m : Mesh) (hvalid : meshValid m)
    (hnodeg : noDegenerateFaces m) (hnounref : noUnreferencedVertices m)
    (hsc : isSingleComponent m) :
    noDegenerateFaces (merge_vertices m) ∧
    noUnreferencedVertices (merge_vertices m) ∧
    isSingleComponent (merge_vertices m) := by
  have hfaces : (merge_vertices m).faces = m.faces.map
      (mapFace fun i => (mergeReps m).indexOf (mergeRepOf m i)) := rfl
  have hverts : (merge_vertices m).vertices =
      (mergeReps m).map (mergePos m) := rfl
  have hnodup : (mergeReps m).Nodup := filterRange_nodup _ _
  have hpres : ∀ {i : ℕ}, i < m.vertices.length →
      (merge_vertices m).vertices.getD
        ((mergeReps m).indexOf (mergeRepOf m i)) vzero =
      m.vertices.getD i vzero := by
    intro i hi
    rw [hverts, map_getD_indexOf (mergeRepOf_mem m hi) _ _]
    exact (mergeRepOf_spec m hi).2.2.1
  refine ⟨?_, ?_, ?_⟩
  · intro g hg
    rw [hfaces, List.mem_map] at hg
    obtain ⟨f, hf, rfl⟩ := hg
    obtain ⟨h1, h2, h3⟩ := hvalid f hf
    rw [faceDegenerate_map (hpres h1) (hpres h2) (hpres h3)]
    exact hnodeg f hf
  · intro j hj
    rw [hverts, List.length_map] at hj
    have hmem : (mergeReps m)[j] ∈ mergeReps m := List.getElem_mem hj
    have hin : (mergeReps m)[j] < m.vertices.length :=
      (filterRange_mem.mp hmem).1
    obtain ⟨f, hf, hhas⟩ := hnounref _ hin
    refine ⟨mapFace (fun i => (mergeReps m).indexOf (mergeRepOf m i)) f,
      by rw [hfaces]; exact List.mem_map_of_mem _ hf, ?_⟩
    have h2 : faceHas
        (mapFace (fun i => (mergeReps m).indexOf (mergeRepOf m i)) f)
        ((mergeReps m).indexOf (mergeRepOf m (mergeReps m)[j])) = true :=
      faceHas_map hhas
    rw [mergeRep_fix m hmem, List.indexOf_getElem hnodup j hj] at h2
    exact h2
  · obtain ⟨hne, hconn⟩ := hsc
    constructor
    · rw [hfaces]
      intro hnil
      rw [List.map_eq_nil_iff] at hnil
      exact hne hnil
    · intro k l hk hl
      rw [hfaces, List.length_map] at hk hl
      rw [hfaces]
      exact facesConnected_map (hconn k l hk hl)

/-- C5 (amended): for every valid input mesh with at least one face
that survives degenerate-face removal, `clean_mesh` succeeds and its
output has no degenerate faces, no unreferenced vertices, and is a
single connected component; the kept component is the one of greatest
vertex count, ties broken in favor of the first-found component of
maximal size (every earlier component is strictly smaller), as
characterized by `pickLargest`.  (Without the survival hypothesis the
claim fails: see the counterexample, where every face is degenerate
and the output is the empty mesh, not a single component.) -/
theorem clean_mesh_output_invariants (m : Mesh) (hvalid : meshValid m)
    (hsurv : ∃ f ∈ m.faces, faceDegenerate m.vertices f = false) :
    (∃ out, clean_mesh m = some out ∧ noDegenerateFaces out ∧
      noUnreferencedVertices out ∧ isSingleComponent out) ∧
    (∀ (faces : List (ℕ × ℕ × ℕ)) (comps : List (Finset ℕ))
      (C : Finset ℕ), pickLargest faces comps = some C →
      C ∈ comps ∧
      (∀ c ∈ comps, compVertexCount faces c ≤ compVertexCount faces C) ∧
      ∃ l1 l2, comps = l1 ++ C :: l2 ∧
        ∀ c ∈ l1, compVertexCount faces c < compVertexCount faces C) := by
  refine ⟨?_, fun faces comps C h => pickLargest_char faces comps C h⟩
  set m1 := removeDegenerateFaces m with hm1
  have hvalid1 : meshValid m1 := by
    intro f hf
    exact hvalid f (removeDegen_mem.mp hf).1
  have hnodeg1 : noDegenerateFaces m1 := by
    intro f hf
    exact (removeDegen_mem.mp hf).2
  have hne1 : m1.faces ≠ [] := by
    obtain ⟨f, hf, hdeg⟩ := hsurv
    intro hnil
    have : f ∈ m1.faces := removeDegen_mem.mpr ⟨hf, hdeg⟩
    rw [hnil] at this
    exact List.not_mem_nil f this
  obtain ⟨hv2, hu2, hd2, _, hn2, _⟩ := remove_unref_full m1 hvalid1
  set m2 := remove_unreferenced_vertices m1 with hm2
  have hne2 : m2.faces ≠ [] := fun hnil => hne1 (hn2.mp hnil)
  obtain ⟨hv3, hd3, hu3, hsc3⟩ :=
    selectComponent_full m2 hv2 (hd2 hnodeg1) hu2 hne2
  obtain ⟨hdeg4, hunref4, hsc4⟩ :=
    merge_full (selectComponent m2) hv3 hd3 hu3 hsc3
  exact ⟨merge_vertices (fix_normals (selectComponent m2)), rfl,
    hdeg4, hunref4, hsc4⟩

theorem clean_mesh_output_invariants_witness :
    meshValid ⟨[((0:ℚ),(0:ℚ),(0:ℚ)), ((1:ℚ),(0:ℚ),(0:ℚ)),
        ((0:ℚ),(1:ℚ),(0:ℚ))], [(0, 1, 2)], none⟩ ∧
    (∃ f ∈ ([((0:ℕ), (1:ℕ), (2:ℕ))] : List (ℕ × ℕ × ℕ)),
      faceDegenerate [((0:ℚ),(0:ℚ),(0:ℚ)), ((1:ℚ),(0:ℚ),(0:ℚ)),
        ((0:ℚ),(1:ℚ),(0:ℚ))] f = false) ∧
    (∃ out, clean_mesh ⟨[((0:ℚ),(0:ℚ),(0:ℚ)), ((1:ℚ),(0:ℚ),(0:ℚ)),
        ((0:ℚ),(1:ℚ),(0:ℚ))], [(0, 1, 2)], none⟩ = some out ∧
      noDegenerateFaces out ∧ noUnreferencedVertices out ∧
      isSingleComponent out) :=
  ⟨by unfold meshValid; decide, by decide,
    (clean_mesh_output_invariants
      ⟨[((0:ℚ),(0:ℚ),(0:ℚ)), ((1:ℚ),(0:ℚ),(0:ℚ)),
        ((0:ℚ),(1:ℚ),(0:ℚ))], [(0, 1, 2)], none⟩
      (by unfold meshValid; decide) (by decide)).1⟩

end Assets3D
